import Mathlib

/-!
# Verification of the SMM log-analysis engine

Shallow embedding of the CSV-ingestion and aggregation module of the
`SMM_AI_data_analysis` repository (`parseCSV`, `isInternalUser`,
`getDailyTrend`, `getHourlyStats`, `classifyIntents`, `getMetalDistribution`,
`getTopKeywords`, `getTopCompanies`, `getUserTypeDistribution`,
`getSourceDistribution`, `calculateRetention`, `getSummaryStats`).

Modelling conventions:
* JavaScript strings are Lean `String`s; the JS operations used by the code
  (`split`, `trim`, `toLowerCase`, `includes`, `parseInt`) are re-implemented
  below on `List Char` so that they are structurally recursive and
  kernel-evaluable.  JS `toLowerCase` is modelled on ASCII letters (the only
  cased characters occurring in the fixed keyword tables); JS string
  comparison (`Array.prototype.sort()` default, UTF-16 code units) is
  modelled by code-point lexicographic order — the two agree on all strings
  appearing here.
* JS `number` arithmetic (used only for the retention rate and the
  per-user average) is modelled exactly over `ℚ`.
* JS objects used as dictionaries are modelled as association lists in key
  insertion order; `Object.keys` / `Object.entries` enumeration is modelled
  by `jsObjectKeysOrder`, which implements the ECMAScript own-property-key
  order: keys that are canonical array indices (decimal numerals without
  leading zeros, below 2^32 - 1) first, in ascending numeric order, then the
  remaining string keys in insertion order.
* JS `Array.prototype.sort` (stable since ES2019) is modelled by the stable
  insertion sort `jsSortBy`; JS `Set` is modelled by an insertion-ordered
  duplicate-free list (`addUser`).
-/

/-! ## JavaScript string primitives -/

/-- Does `hay` start with `needle`?  (helper for substring containment). -/
def startsWithChars : List Char → List Char → Bool
  | _, [] => true
  | [], _ :: _ => false
  | h :: hs, n :: ns => h = n && startsWithChars hs ns

/-- `containsSub hay needle`: `needle` occurs as a contiguous run in `hay`.
Models JS `String.prototype.includes` (case-sensitive). -/
def containsSub : List Char → List Char → Bool
  | [], needle => startsWithChars [] needle
  | h :: rest, needle => startsWithChars (h :: rest) needle || containsSub rest needle

/-- JS `hay.includes(pat)`. -/
def containsStr (hay pat : String) : Bool :=
  containsSub hay.data pat.data

/-- JS `String.prototype.split` with a single-character separator, keeping
empty segments (`"a  b".split(' ') = ["a","","b"]`, `"".split(' ') = [""]`). -/
def splitChars (sep : Char) : List Char → List (List Char)
  | [] => [[]]
  | c :: rest =>
    match splitChars sep rest with
    | [] => [[c]]
    | h :: t => if c = sep then [] :: h :: t else (c :: h) :: t

/-- JS `s.split(sep)` for a one-character separator. -/
def jsSplit (s : String) (sep : Char) : List String :=
  (splitChars sep s.data).map (fun l => String.mk l)

/-- JS `String.prototype.trim` (whitespace stripped from both ends). -/
def jsTrim (s : String) : String :=
  String.mk (((s.data.dropWhile Char.isWhitespace).reverse.dropWhile Char.isWhitespace).reverse)

/-- JS `String.prototype.toLowerCase`, modelled on ASCII letters. -/
def jsToLower (s : String) : String :=
  String.mk (s.data.map Char.toLower)

/-- Numeric value of a list of decimal digit characters. -/
def digitsVal (l : List Char) : Nat :=
  l.foldl (fun n c => n * 10 + (c.toNat - 48)) 0

/-- Longest leading run of decimal digits, as a number; `none` if there is
no leading digit (JS `parseInt` yields `NaN` there). -/
def jsParseNat (l : List Char) : Option Nat :=
  let ds := l.takeWhile Char.isDigit
  if ds = [] then none else some (digitsVal ds)

/-- JS `parseInt(s, 10)`: skip leading whitespace, optional sign, then the
longest run of decimal digits; `none` models `NaN`. -/
def jsParseInt (s : String) : Option Int :=
  match s.data.dropWhile Char.isWhitespace with
  | '-' :: rest => (jsParseNat rest).map (fun n => -(n : Int))
  | '+' :: rest => (jsParseNat rest).map (fun n => (n : Int))
  | l => (jsParseNat l).map (fun n => (n : Int))

/-- Code-point lexicographic order on character lists; models the default
JS string comparison used by `Array.prototype.sort()`. -/
def charListLe : List Char → List Char → Bool
  | [], _ => true
  | _ :: _, [] => false
  | a :: as, b :: bs => if a = b then charListLe as bs else decide (a < b)

/-- Default JS string comparison `a <= b`. -/
def strLe (a b : String) : Bool :=
  charListLe a.data b.data

/-! ## JavaScript containers -/

/-- JS `Set.prototype.add`: append the element if it is not present yet
(JS sets iterate in insertion order). -/
def addUser (s : List String) (u : String) : List String :=
  if u ∈ s then s else s ++ [u]

/-- The JS `Set` of the elements of `l`, i.e. insertion-order deduplication. -/
def jsSetOf (l : List String) : List String :=
  l.foldl addUser []

/-- `counts[k] = (counts[k] || 0) + 1` on an association-list dictionary:
increment the value at the first occurrence of `k`, or append `(k, 1)`. -/
def bump : List (String × Nat) → String → List (String × Nat)
  | [], k => [(k, 1)]
  | (k', v) :: rest, k => if k' = k then (k', v + 1) :: rest else (k', v) :: bump rest k

/-- Value stored at key `k` (0 if absent), reading the first occurrence. -/
def valueOf : List (String × Nat) → String → Nat
  | [], _ => 0
  | (k', v) :: rest, k => if k' = k then v else valueOf rest k

/-- Is `s` a canonical ECMAScript array-index property key: a decimal
numeral without leading zeros whose value is below `2^32 - 1`? -/
def isArrayIndexKey (s : String) : Bool :=
  !s.data.isEmpty && s.data.all Char.isDigit &&
    (s.data.head? ≠ some '0' || s.data.length = 1) &&
    digitsVal s.data < 4294967295

/-- Stable insertion of `a` into `l`, before the first `b` with `le a b`. -/
def insertLe (le : α → α → Bool) (a : α) : List α → List α
  | [] => [a]
  | b :: l => if le a b then a :: b :: l else b :: insertLe le a l

/-- Stable sort by the total preorder `le`; models JS
`Array.prototype.sort` with a consistent comparator (stable since ES2019). -/
def jsSortBy (le : α → α → Bool) : List α → List α
  | [] => []
  | a :: l => insertLe le a (jsSortBy le l)

/-- ECMAScript own-property-key enumeration order of a dictionary built in
insertion order: array-index keys first, ascending numerically, then the
remaining keys in insertion order.  This is the order of `Object.keys` /
`Object.entries`. -/
def jsObjectKeysOrder (st : List (String × β)) : List (String × β) :=
  jsSortBy (fun a b => decide (digitsVal a.1.data ≤ digitsVal b.1.data))
      (st.filter (fun p => isArrayIndexKey p.1))
    ++ st.filter (fun p => !isArrayIndexKey p.1)

/-- Position of `s` in the table `l` (length of `l` if absent); used to
state tie-breaking by table order. -/
def rankIn : List String → String → Nat
  | [], _ => 0
  | a :: t, s => if a = s then 0 else rankIn t s + 1

/-- The relative order JavaScript object-key enumeration gives two distinct
keys of one dictionary: array-index keys ordered numerically come before the
other keys, which follow the first-seen (insertion) order `fs`. -/
def keyOrd (fs : List String) (a b : String) : Prop :=
  if isArrayIndexKey a then
    if isArrayIndexKey b then digitsVal a.data ≤ digitsVal b.data else True
  else
    if isArrayIndexKey b then False else rankIn fs a < rankIn fs b

/-! ## Data model (`types.ts`) -/

/-- One normalized interaction record (`SmmLogEntry` in `types.ts`).  The
optional identity fields default to the empty string at ingestion, so they
are plain strings here. -/
structure SmmLogEntry where
  questionId : String
  content : String
  time : String
  source : String
  userId : String
  company : String
  userName : String
  nickname : String
  email : String
  feedbackStatus : String
  feedbackContent : String
deriving DecidableEq, Repr

/-- Generic label/count pair (`NamedValue`). -/
structure NamedValue where
  name : String
  value : Nat
deriving DecidableEq, Repr

/-- One day of the traffic trend (`DailyTrend`). -/
structure DailyTrend where
  date : String
  queries : Nat
  dau : Nat
deriving DecidableEq, Repr

/-- One hour slot of the hourly histogram (`HourlyStats`). -/
structure HourlyStats where
  hour : String
  count : Nat
deriving DecidableEq, Repr

/-- One keyword with its frequency (`KeywordFrequency`). -/
structure KeywordFrequency where
  keyword : String
  count : Nat
deriving DecidableEq, Repr

/-- Top-line metric bundle (`AnalysisSummary`); the two fractional fields
are modelled over `ℚ`. -/
structure AnalysisSummary where
  totalQueries : Nat
  uniqueUsers : Nat
  avgQueriesPerUser : ℚ
  retentionRate : ℚ
  topSource : String
  busiestDay : String
deriving DecidableEq, Repr

/-! ## Record normalizer (`parseCSV`) -/

/-- Field extraction of `parseCSV`'s row mapper: `row[zhKey]` on the parsed
CSV row object, then `val ? val.trim() : ''` (missing header or empty value
gives the empty string). -/
def getField (row : List (String × String)) (zhKey : String) : String :=
  match row.lookup zhKey with
  | none => ""
  | some v => if v = "" then "" else jsTrim v

/-- The row mapper of `parseCSV`: build a candidate record by looking up
each canonical field via its localized header (`HEADER_MAPPING`). -/
def normalizeRow (row : List (String × String)) : SmmLogEntry where
  questionId := getField row "问题ID"
  content := getField row "问题内容"
  time := getField row "提问时间"
  source := getField row "来源"
  userId := getField row "用户ID"
  company := getField row "公司名"
  userName := getField row "用户姓名"
  nickname := getField row "用户昵称"
  email := getField row "邮箱"
  feedbackStatus := getField row "反馈状态"
  feedbackContent := getField row "反馈内容"

/-- `parseCSV` after tokenization: map every raw row through the header
mapping and keep only candidates whose `content` and `time` are non-empty
(`.filter(item => item.content && item.time)`). -/
def parseCSV (rows : List (List (String × String))) : List SmmLogEntry :=
  (rows.map normalizeRow).filter (fun item => item.content ≠ "" && item.time ≠ "")

/-! ## Internal-user rule -/

/-- `isInternalUser`: the lowercased join of `company`, `userName`,
`nickname`, `email` (separator `' '`) contains `'smm'` or `'上海有色网'`. -/
def isInternalUser (entry : SmmLogEntry) : Bool :=
  ["smm", "上海有色网"].any (fun k =>
    containsStr
      (jsToLower (entry.company ++ " " ++ entry.userName ++ " " ++ entry.nickname ++ " " ++ entry.email))
      k)

/-! ## Time analysis -/

/-- Date portion of a timestamp: `entry.time.split(' ')[0]`. -/
def dateOf (time : String) : String :=
  (jsSplit time ' ').headD ""

/-- Per-date accumulator of `getDailyTrend`: query count plus the JS `Set`
of user ids seen that day. -/
structure DayAcc where
  queries : Nat
  users : List String
deriving DecidableEq, Repr

/-- One step of `getDailyTrend`'s accumulation for date `d`: create the
per-date accumulator on first sight, bump `queries`, and add the user id
to the day's set when it is non-empty (`if (entry.userId)`). -/
def bumpDay : List (String × DayAcc) → String → String → List (String × DayAcc)
  | [], d, uid => [(d, ⟨1, if uid = "" then [] else [uid]⟩)]
  | (k, acc) :: rest, d, uid =>
    if k = d then
      (k, ⟨acc.queries + 1, if uid = "" then acc.users else addUser acc.users uid⟩) :: rest
    else
      (k, acc) :: bumpDay rest d uid

/-- Day accumulator stored at date `d` (fresh accumulator if absent). -/
def dayAccOf : List (String × DayAcc) → String → DayAcc
  | [], _ => ⟨0, []⟩
  | (k, acc) :: rest, d => if k = d then acc else dayAccOf rest d

/-- The `stats` dictionary of `getDailyTrend`: accumulate per non-empty
date portion. -/
def dailyStats (data : List SmmLogEntry) : List (String × DayAcc) :=
  data.foldl
    (fun st entry =>
      if dateOf entry.time = "" then st else bumpDay st (dateOf entry.time) entry.userId)
    []

/-- `getDailyTrend`: group by the date portion of `time` (records with an
empty date portion are skipped), then emit `Object.keys(stats).sort()` with
the per-date query count and the day's distinct-user count. -/
def getDailyTrend (data : List SmmLogEntry) : List DailyTrend :=
  (jsSortBy strLe ((jsObjectKeysOrder (dailyStats data)).map (fun p => p.1))).map
    (fun date =>
      ⟨date, (dayAccOf (dailyStats data) date).queries,
        (dayAccOf (dailyStats data) date).users.length⟩)

/-- Hour extraction of `getHourlyStats`: `time.split(' ')[1]` (skipped when
missing or empty, both falsy), then `parseInt` of the text before the first
`':'`, kept only when it is an integer in `[0, 24)`. -/
def hourOf (time : String) : Option Nat :=
  if (jsSplit time ' ').getD 1 "" = "" then none
  else
    match jsParseInt ((jsSplit ((jsSplit time ' ').getD 1 "") ':').headD "") with
    | none => none
    | some h => if 0 ≤ h ∧ h < 24 then some h.toNat else none

/-- `counts.map((count, hour) => ...)`: map with the element index. -/
def mapWithIdx (f : Nat → α → β) : Nat → List α → List β
  | _, [] => []
  | i, a :: l => f i a :: mapWithIdx f (i + 1) l

/-- `getHourlyStats`: a 24-slot zero-initialized counter, incremented at
each record's parsed hour, then rendered as `"H:00"` labels. -/
def getHourlyStats (data : List SmmLogEntry) : List HourlyStats :=
  let counts := data.foldl
    (fun counts entry =>
      match hourOf entry.time with
      | some h => counts.set h (counts.getD h 0 + 1)
      | none => counts)
    (List.replicate 24 0)
  mapWithIdx (fun hour count => ⟨Nat.repr hour ++ ":00", count⟩) 0 counts

/-! ## Content analysis -/

/-- The intent table of `classifyIntents`, in declaration order.  Every
regex in the source is an alternation of literal substrings with the `i`
flag, so each pattern is modelled as its list of (lowercase) literals. -/
def intentTable : List (String × List String) :=
  [("闲聊/问候", ["你好", "早上好", "晚上好", "谢谢", "感谢", "再见", "hello", "hi", "哈哈",
                  "牛", "厉害", "智障", "笨蛋", "测试", "谁", "帮助"]),
   ("行情/价格", ["价格", "多少钱", "报价", "升贴水", "价", "结算", "多少", "钱", "花费", "行情"]),
   ("趋势/预测", ["走势", "涨", "跌", "预测", "后市", "看法", "分析", "展望", "趋势", "动向"]),
   ("数据/库存", ["库存", "仓单", "产量", "产能", "进出口", "表", "数据", "图", "排产",
                  "开工率", "销量", "平衡表"]),
   ("知识/百科", ["是什么", "定义", "标准", "工艺", "介绍", "牌号", "区别", "含义", "科普"])]

/-- `regex.test(content)` for an `i`-flagged alternation of literals. -/
def intentMatch (pats : List String) (content : String) : Bool :=
  pats.any (fun p => containsStr (jsToLower content) p)

/-- The six intent labels in declaration order (the catch-all last). -/
def intentLabels : List String :=
  intentTable.map (fun p => p.1) ++ ["其他"]

/-- First-match-wins classification of one record's content: the first
table pattern that matches, else the catch-all `'其他'`. -/
def classifyIntent (content : String) : String :=
  match intentTable.find? (fun p => intentMatch p.2 content) with
  | some p => p.1
  | none => "其他"

/-- `classifyIntents`: count each record under its (single) intent label;
the output keeps all six labels, zero counts included, in declaration
order. -/
def classifyIntents (data : List SmmLogEntry) : List NamedValue :=
  let counts := data.foldl
    (fun counts entry => bump counts (classifyIntent entry.content))
    (intentLabels.map (fun l => (l, 0)))
  (jsObjectKeysOrder counts).map (fun p => ⟨p.1, p.2⟩)

/-- The metal/commodity vocabulary of `getMetalDistribution`, in
declaration order. -/
def metals : List String :=
  ["铜", "铝", "锌", "铅", "镍", "锡",
   "锂", "钴", "不锈钢", "金", "银",
   "稀土", "钨", "钼", "硅", "镁", "锰",
   "钛", "铬", "铟", "镓", "锗", "铼",
   "钒", "锆", "铪", "钽", "铌", "铂",
   "钯", "铑", "铱", "钌", "锇",
   "碳酸锂", "氢氧化锂", "磷酸铁锂", "六氟磷酸锂", "电解液",
   "三元", "光伏", "多晶硅", "硅片", "电池", "组件", "EVA", "POE",
   "废钢", "废铜", "废铝", "石油焦", "阳极", "黑粉", "碳酸酯", "氧化铝"]

/-- The keyword vocabulary of `getTopKeywords`, in declaration order. -/
def keywordTable : List String :=
  ["价格", "库存", "走势", "涨", "跌", "预测",
   "结算", "加工费", "升贴水", "现货", "期货",
   "产量", "消费", "废", "再生", "月度", "年度",
   "成本", "利润", "供需", "产能", "开工率",
   "报价", "均价", "指数", "进口", "出口",
   "政策", "宏观", "美联储", "降息", "汇率",
   "行情", "分析", "数据", "报表", "日报", "周报",
   "多少钱", "LME", "SHFE", "长江", "SMM", "排产", "销量"]

/-- Shared multi-label counting loop of `getMetalDistribution` and
`getTopKeywords`: all vocabulary terms start at 0 and every term contained
in a record's content is incremented once per record. -/
def vocabCounts (vocab : List String) (data : List SmmLogEntry) : List (String × Nat) :=
  data.foldl
    (fun counts entry =>
      vocab.foldl
        (fun counts m => if containsStr entry.content m then bump counts m else counts)
        counts)
    (vocab.map (fun m => (m, 0)))

/-- `getMetalDistribution`: count vocabulary containment, drop zero
entries, then stable-sort descending by count. -/
def getMetalDistribution (data : List SmmLogEntry) : List NamedValue :=
  (jsSortBy (fun a b => decide (b.2 ≤ a.2))
      ((jsObjectKeysOrder (vocabCounts metals data)).filter (fun p => decide (0 < p.2)))).map
    (fun p => ⟨p.1, p.2⟩)

/-- `getTopKeywords`: count vocabulary containment, stable-sort descending
by count, then drop zero entries. -/
def getTopKeywords (data : List SmmLogEntry) : List KeywordFrequency :=
  (jsSortBy (fun a b => decide (b.count ≤ a.count))
      ((jsObjectKeysOrder (vocabCounts keywordTable data)).map
        (fun p => ({ keyword := p.1, count := p.2 } : KeywordFrequency)))).filter
    (fun k => decide (0 < k.count))

/-! ## User analysis -/

/-- The fixed aggregate label for internal records in `getTopCompanies`. -/
def INTERNAL_LABEL : String := "上海有色网 (SMM)"

/-- The bucket of one record in `getTopCompanies`: internal records under
the fixed aggregate label; external records under the trimmed `company`
field, skipped when the trimmed company is empty. -/
def companyBucket (entry : SmmLogEntry) : Option String :=
  if isInternalUser entry then some INTERNAL_LABEL
  else
    let company := if entry.company = "" then "" else jsTrim entry.company
    if company = "" then none else some company

/-- `getTopCompanies`: count per bucket, sort descending by count (stable),
keep the top 10. -/
def getTopCompanies (data : List SmmLogEntry) : List NamedValue :=
  let counts := data.foldl
    (fun counts entry =>
      match companyBucket entry with
      | some k => bump counts k
      | none => counts)
    []
  ((jsSortBy (fun a b => decide (b.2 ≤ a.2)) (jsObjectKeysOrder counts)).take 10).map
    (fun p => ⟨p.1, p.2⟩)

/-- `getUserTypeDistribution`: three counters — internal via the
internal-user rule, else external when `company` is non-empty after trim,
else unknown — rendered in fixed label order with zero segments dropped. -/
def getUserTypeDistribution (data : List SmmLogEntry) : List NamedValue :=
  let acc := data.foldl
    (fun (acc : Nat × Nat × Nat) entry =>
      if isInternalUser entry then (acc.1 + 1, acc.2.1, acc.2.2)
      else if entry.company ≠ "" ∧ jsTrim entry.company ≠ "" then (acc.1, acc.2.1 + 1, acc.2.2)
      else (acc.1, acc.2.1, acc.2.2 + 1))
    (0, 0, 0)
  ([⟨"内部员工", acc.1⟩, ⟨"外部客户", acc.2.1⟩, ⟨"未知", acc.2.2⟩] : List NamedValue).filter
    (fun item => decide (0 < item.value))

/-- `getSourceDistribution`: group by `source`, defaulting the empty source
to `'Unknown'`; emitted in object-key enumeration order. -/
def getSourceDistribution (data : List SmmLogEntry) : List NamedValue :=
  let counts := data.foldl
    (fun counts entry => bump counts (if entry.source = "" then "Unknown" else entry.source))
    []
  (jsObjectKeysOrder counts).map (fun p => ⟨p.1, p.2⟩)

/-! ## Summary -/

/-- One step of `calculateRetention`'s per-date user-set accumulation: the
user id (empty or not) is always added to the date's set; the date portion
is used as a key even when empty (no guard in the source). -/
def addToDay : List (String × List String) → String → String → List (String × List String)
  | [], d, uid => [(d, [uid])]
  | (k, s) :: rest, d, uid =>
    if k = d then (k, addUser s uid) :: rest else (k, s) :: addToDay rest d uid

/-- User set stored at date `d` (empty if absent). -/
def dayUsers : List (String × List String) → String → List String
  | [], _ => []
  | (k, s) :: rest, d => if k = d then s else dayUsers rest d

/-- The `userDays` dictionary of `calculateRetention`: the user-id set per
date portion, the empty date and the empty user id included. -/
def userDaysOf (data : List SmmLogEntry) : List (String × List String) :=
  data.foldl (fun ud entry => addToDay ud (dateOf entry.time) entry.userId) []

/-- `calculateRetention`: per-date user sets, dates sorted ascending; for
each consecutive date pair with a non-empty day-`i` set accumulate
`|set_i ∩ set_{i+1}| / |set_i|`; result is the mean of these ratios × 100,
0 when fewer than two distinct dates or no comparison was made. -/
def calculateRetention (data : List SmmLogEntry) : ℚ :=
  let dates := jsSortBy strLe ((jsObjectKeysOrder (userDaysOf data)).map (fun p => p.1))
  if dates.length < 2 then 0
  else
    let step := (dates.zip dates.tail).foldl
      (fun (acc : ℚ × Nat) p =>
        if 0 < (dayUsers (userDaysOf data) p.1).length then
          (acc.1 + (((dayUsers (userDaysOf data) p.1).filter
              (fun uid => uid ∈ dayUsers (userDaysOf data) p.2)).length : ℚ)
            / ((dayUsers (userDaysOf data) p.1).length : ℚ),
           acc.2 + 1)
        else acc)
      (0, 0)
    if 0 < step.2 then step.1 / (step.2 : ℚ) * 100 else 0

/-- `getSummaryStats`: record count, distinct user-id count (JS `Set`,
empty id included), guarded per-user average, top source and busiest day by
descending sort, and the retention estimate. -/
def getSummaryStats (data : List SmmLogEntry) : AnalysisSummary :=
  let totalQueries := data.length
  let uniqueUsers := (jsSetOf (data.map (fun d => d.userId))).length
  let avgQueriesPerUser : ℚ :=
    if 0 < uniqueUsers then (totalQueries : ℚ) / (uniqueUsers : ℚ) else 0
  let sources := jsSortBy (fun a b => decide (b.value ≤ a.value)) (getSourceDistribution data)
  let topSource :=
    match sources.head? with
    | some nv => if nv.name = "" then "N/A" else nv.name
    | none => "N/A"
  let trends := jsSortBy (fun a b => decide (b.queries ≤ a.queries)) (getDailyTrend data)
  let busiestDay :=
    match trends.head? with
    | some t => if t.date = "" then "N/A" else t.date
    | none => "N/A"
  { totalQueries := totalQueries
    uniqueUsers := uniqueUsers
    avgQueriesPerUser := avgQueriesPerUser
    retentionRate := calculateRetention data
    topSource := topSource
    busiestDay := busiestDay }

/-! ## Specification-side formulation of the retention estimator -/

/-- The set of user ids (empty id included) of the records carrying date
`d`; the set-based reading of §4.3.2's "per-date user sets". -/
def usersOn (data : List SmmLogEntry) (d : String) : Finset String :=
  ((data.filter (fun e => decide (dateOf e.time = d))).map (fun e => e.userId)).toFinset

/-- The retention rate as the specification words it: over the ascending
list of distinct dates, take every consecutive pair whose day-`i` user set
is non-empty, average `|set_i ∩ set_{i+1}| / |set_i|` over those pairs and
express it as a percentage; 0 when fewer than two distinct dates exist or
no pair qualifies. -/
def retentionSpec (data : List SmmLogEntry) : ℚ :=
  let ds := jsSortBy strLe (jsSetOf (data.map (fun e => dateOf e.time)))
  if ds.length < 2 then 0
  else
    let valid := (ds.zip ds.tail).filter (fun p => decide (0 < (usersOn data p.1).card))
    if valid.length = 0 then 0
    else
      (valid.map (fun p =>
          ((usersOn data p.1 ∩ usersOn data p.2).card : ℚ) / ((usersOn data p.1).card : ℚ))).sum
        / (valid.length : ℚ) * 100


/-! ## Named components of the retention estimator -/

def retDates (data : List SmmLogEntry) : List String :=
  jsSortBy strLe ((jsObjectKeysOrder (userDaysOf data)).map (fun p => p.1))

def retPair (data : List SmmLogEntry) (p : String × String) : ℚ :=
  (((dayUsers (userDaysOf data) p.1).filter
      (fun uid => uid ∈ dayUsers (userDaysOf data) p.2)).length : ℚ)
    / ((dayUsers (userDaysOf data) p.1).length : ℚ)

def retFoldStep (data : List SmmLogEntry) : ℚ × Nat :=
  ((retDates data).zip (retDates data).tail).foldl
    (fun (acc : ℚ × Nat) p =>
      if 0 < (dayUsers (userDaysOf data) p.1).length then
        (acc.1 + retPair data p, acc.2 + 1)
      else acc) ((0 : ℚ), (0 : Nat))

def retValid (data : List SmmLogEntry) : List (String × String) :=
  ((retDates data).zip (retDates data).tail).filter
    (fun p => decide (0 < (dayUsers (userDaysOf data) p.1).length))

def specDates (data : List SmmLogEntry) : List String :=
  jsSortBy strLe (jsSetOf (data.map (fun e => dateOf e.time)))

def specValid (data : List SmmLogEntry) : List (String × String) :=
  ((specDates data).zip (specDates data).tail).filter
    (fun p => decide (0 < (usersOn data p.1).card))

/-! ## Generic lemmas: stable sort -/

theorem mem_insertLe {le : α → α → Bool} {a x : α} :
    ∀ {l : List α}, x ∈ insertLe le a l ↔ x = a ∨ x ∈ l := by
  intro l
  induction l with
  | nil => simp [insertLe]
  | cons b t ih =>
    by_cases h : le a b = true
    · simp [insertLe, h]
    · rw [insertLe, if_neg h]
      simp only [List.mem_cons, ih]
      tauto

theorem perm_insertLe {le : α → α → Bool} (a : α) :
    ∀ (l : List α), (insertLe le a l).Perm (a :: l) := by
  intro l
  induction l with
  | nil => simp [insertLe]
  | cons b t ih =>
    by_cases h : le a b = true
    · simp [insertLe, h]
    · simpa [insertLe, h] using ((ih.cons b).trans (List.Perm.swap a b t))

theorem perm_jsSortBy {le : α → α → Bool} :
    ∀ (l : List α), (jsSortBy le l).Perm l := by
  intro l
  induction l with
  | nil => simp [jsSortBy]
  | cons a t ih => exact (perm_insertLe a (jsSortBy le t)).trans (ih.cons a)

/-- Stability core: inserting `a` into a list whose pairs already satisfy
the stable-sort relation, where `a` precedes every element in the tie-break
relation `K`, keeps the relation. -/
theorem pairwise_insertLe {K : α → α → Prop} {le : α → α → Bool}
    (htot : ∀ a b, le a b = true ∨ le b a = true)
    (htrans : ∀ a b c, le a b = true → le b c = true → le a c = true)
    {a : α} :
    ∀ {l : List α},
      l.Pairwise (fun x y => (le x y = true ∧ ¬le y x = true) ∨ (le x y = true ∧ le y x = true ∧ K x y)) →
      (∀ x ∈ l, K a x) →
      (insertLe le a l).Pairwise
        (fun x y => (le x y = true ∧ ¬le y x = true) ∨ (le x y = true ∧ le y x = true ∧ K x y)) := by
  intro l
  induction l with
  | nil => simp [insertLe]
  | cons b t ih =>
    intro hl ha
    by_cases h : le a b = true
    · rw [insertLe, if_pos h]
      refine List.Pairwise.cons ?_ hl
      intro c hc
      rcases List.mem_cons.mp hc with rfl | hct
      · by_cases hba : le c a = true
        · exact Or.inr ⟨h, hba, ha c (List.mem_cons_self _ _)⟩
        · exact Or.inl ⟨h, hba⟩
      · have hbc : le b c = true := by
          rcases List.rel_of_pairwise_cons hl hct with h' | h'
          · exact h'.1
          · exact h'.1
        have hac : le a c = true := htrans a b c h hbc
        by_cases hca : le c a = true
        · exact Or.inr ⟨hac, hca, ha c (List.mem_cons_of_mem _ hct)⟩
        · exact Or.inl ⟨hac, hca⟩
    · rw [insertLe, if_neg h]
      refine List.Pairwise.cons ?_ (ih hl.tail ?_)
      · intro c hc
        rcases mem_insertLe.mp hc with rfl | hct
        · have hba : le b c = true := (htot c b).resolve_left h
          exact Or.inl ⟨hba, h⟩
        · exact List.rel_of_pairwise_cons hl hct
      · intro x hx
        exact ha x (List.mem_cons_of_mem _ hx)

/-- Stable-sort characterization: sorting a `K`-ordered list by the total
transitive comparison `le` yields a list whose pairs are either strictly
`le`-ordered or `le`-ties in the original `K` order. -/
theorem pairwise_jsSortBy {K : α → α → Prop} {le : α → α → Bool}
    (htot : ∀ a b, le a b = true ∨ le b a = true)
    (htrans : ∀ a b c, le a b = true → le b c = true → le a c = true) :
    ∀ {l : List α}, l.Pairwise K →
      (jsSortBy le l).Pairwise
        (fun x y => (le x y = true ∧ ¬le y x = true) ∨ (le x y = true ∧ le y x = true ∧ K x y)) := by
  intro l
  induction l with
  | nil => simp [jsSortBy]
  | cons a t ih =>
    intro hl
    refine pairwise_insertLe htot htrans (ih hl.tail) ?_
    intro x hx
    exact List.rel_of_pairwise_cons hl ((perm_jsSortBy t).mem_iff.mp hx)

theorem pairwise_le_jsSortBy {le : α → α → Bool}
    (htot : ∀ a b, le a b = true ∨ le b a = true)
    (htrans : ∀ a b c, le a b = true → le b c = true → le a c = true)
    (l : List α) : (jsSortBy le l).Pairwise (fun x y => le x y = true) := by
  have hK : List.Pairwise (fun _ _ : α => True) l := by
    induction l with
    | nil => exact List.Pairwise.nil
    | cons a t ih => exact List.Pairwise.cons (fun _ _ => trivial) ih
  exact (pairwise_jsSortBy htot htrans hK).imp
    (fun h => by rcases h with h | h <;> exact h.1)

/-- Two lists sorted by an antisymmetric total comparison and equal as
multisets are equal. -/
theorem sorted_perm_eq {le : α → α → Bool}
    (hanti : ∀ a b, le a b = true → le b a = true → a = b) :
    ∀ {l₁ l₂ : List α}, l₁.Perm l₂ →
      l₁.Pairwise (fun x y => le x y = true) → l₂.Pairwise (fun x y => le x y = true) →
      l₁ = l₂ := by
  intro l₁
  induction l₁ with
  | nil =>
    intro l₂ hp _ _
    exact (hp.symm.eq_nil).symm
  | cons a t₁ ih =>
    intro l₂ hp h₁ h₂
    cases l₂ with
    | nil => exact absurd hp.eq_nil (by simp)
    | cons b t₂ =>
      by_cases hab : a = b
      · subst hab
        exact congrArg _ (ih (hp.cons_inv) h₁.tail h₂.tail)
      · have ha2 : a ∈ b :: t₂ := hp.mem_iff.mp (List.mem_cons_self _ _)
        have hb1 : b ∈ a :: t₁ := hp.mem_iff.mpr (List.mem_cons_self _ _)
        have hat2 : a ∈ t₂ := by
          rcases List.mem_cons.mp ha2 with h | h
          · exact absurd h hab
          · exact h
        have hbt1 : b ∈ t₁ := by
          rcases List.mem_cons.mp hb1 with h | h
          · exact absurd h.symm hab
          · exact h
        have h1 : le a b = true := List.rel_of_pairwise_cons h₁ hbt1
        have h2 : le b a = true := List.rel_of_pairwise_cons h₂ hat2
        exact absurd (hanti a b h1 h2) hab

/-! ## Generic lemmas: the string order -/

theorem charListLe_total : ∀ (l₁ l₂ : List Char), charListLe l₁ l₂ = true ∨ charListLe l₂ l₁ = true := by
  intro l₁
  induction l₁ with
  | nil => intro l₂; exact Or.inl rfl
  | cons a as ih =>
    intro l₂
    cases l₂ with
    | nil => exact Or.inr rfl
    | cons b bs =>
      by_cases hab : a = b
      · subst hab
        simpa [charListLe] using ih bs
      · rcases lt_trichotomy a b with h | h | h
        · exact Or.inl (by simp [charListLe, hab, h])
        · exact absurd h hab
        · have hba : ¬b = a := fun h' => hab h'.symm
          exact Or.inr (by rw [charListLe, if_neg hba]; exact decide_eq_true h)

theorem charListLe_trans :
    ∀ (l₁ l₂ l₃ : List Char), charListLe l₁ l₂ = true → charListLe l₂ l₃ = true →
      charListLe l₁ l₃ = true := by
  intro l₁
  induction l₁ with
  | nil => intro l₂ l₃ _ _; rfl
  | cons a as ih =>
    intro l₂ l₃ h12 h23
    cases l₂ with
    | nil => exact absurd h12 (by simp [charListLe])
    | cons b bs =>
      cases l₃ with
      | nil => exact absurd h23 (by simp [charListLe])
      | cons c cs =>
        by_cases hab : a = b <;> by_cases hbc : b = c
        · subst hab; subst hbc
          rw [charListLe] at h12 h23 ⊢
          simp only [if_pos rfl] at h12 h23 ⊢
          exact ih bs cs h12 h23
        · subst hab
          rw [charListLe] at h23 ⊢
          rw [if_neg hbc] at h23
          rw [if_neg hbc]
          exact h23
        · subst hbc
          rw [charListLe] at h12 ⊢
          rw [if_neg hab] at h12
          rw [if_neg hab]
          exact h12
        · have h1 : a < b := by
            rw [charListLe, if_neg hab] at h12
            exact of_decide_eq_true h12
          have h2 : b < c := by
            rw [charListLe, if_neg hbc] at h23
            exact of_decide_eq_true h23
          have hac : a < c := h1.trans h2
          rw [charListLe, if_neg (ne_of_lt hac)]
          exact decide_eq_true hac

theorem charListLe_antisymm :
    ∀ (l₁ l₂ : List Char), charListLe l₁ l₂ = true → charListLe l₂ l₁ = true → l₁ = l₂ := by
  intro l₁
  induction l₁ with
  | nil =>
    intro l₂ _ h21
    cases l₂ with
    | nil => rfl
    | cons b bs => exact absurd h21 (by simp [charListLe])
  | cons a as ih =>
    intro l₂ h12 h21
    cases l₂ with
    | nil => exact absurd h12 (by simp [charListLe])
    | cons b bs =>
      by_cases hab : a = b
      · subst hab
        rw [charListLe, if_pos rfl] at h12 h21
        exact congrArg _ (ih bs h12 h21)
      · have h1 : a < b := by
          rw [charListLe, if_neg hab] at h12
          exact of_decide_eq_true h12
        have h2 : b < a := by
          rw [charListLe, if_neg (fun h => hab h.symm)] at h21
          exact of_decide_eq_true h21
        exact absurd h1 (not_lt.mpr h2.le)

theorem strLe_total : ∀ (a b : String), strLe a b = true ∨ strLe b a = true :=
  fun a b => charListLe_total a.data b.data

theorem strLe_trans : ∀ (a b c : String), strLe a b = true → strLe b c = true → strLe a c = true :=
  fun a b c => charListLe_trans a.data b.data c.data

theorem strLe_antisymm : ∀ (a b : String), strLe a b = true → strLe b a = true → a = b :=
  fun _ _ h1 h2 => String.ext (charListLe_antisymm _ _ h1 h2)

/-! ## Generic lemmas: JS sets -/

theorem mem_addUser {s : List String} {u x : String} :
    x ∈ addUser s u ↔ x ∈ s ∨ x = u := by
  unfold addUser
  by_cases h : u ∈ s
  · simp only [if_pos h]
    constructor
    · exact Or.inl
    · rintro (hx | rfl)
      · exact hx
      · exact h
  · simp [if_neg h]

theorem nodup_addUser {s : List String} {u : String} (h : s.Nodup) :
    (addUser s u).Nodup := by
  unfold addUser
  by_cases hu : u ∈ s
  · simpa [if_pos hu] using h
  · rw [if_neg hu, List.nodup_append]
    refine ⟨h, List.nodup_singleton u, ?_⟩
    intro x hx hx'
    rw [List.mem_singleton] at hx'
    subst hx'
    exact hu hx

theorem mem_foldl_addUser :
    ∀ (l : List String) (s : List String) (x : String),
      x ∈ l.foldl addUser s ↔ x ∈ s ∨ x ∈ l := by
  intro l
  induction l with
  | nil => simp
  | cons a t ih =>
    intro s x
    rw [List.foldl_cons, ih]
    rw [mem_addUser]
    simp only [List.mem_cons]
    tauto

theorem nodup_foldl_addUser :
    ∀ (l : List String) (s : List String), s.Nodup → (l.foldl addUser s).Nodup := by
  intro l
  induction l with
  | nil => intro s h; exact h
  | cons a t ih => intro s h; exact ih _ (nodup_addUser h)

theorem mem_jsSetOf {l : List String} {x : String} : x ∈ jsSetOf l ↔ x ∈ l := by
  unfold jsSetOf
  rw [mem_foldl_addUser]
  simp

theorem nodup_jsSetOf (l : List String) : (jsSetOf l).Nodup :=
  nodup_foldl_addUser l [] List.nodup_nil

theorem length_jsSetOf (l : List String) : (jsSetOf l).length = l.toFinset.card := by
  have h1 : (jsSetOf l).toFinset = l.toFinset := by
    ext x
    simp [List.mem_toFinset, mem_jsSetOf]
  calc (jsSetOf l).length = (jsSetOf l).toFinset.card :=
        (List.toFinset_card_of_nodup (nodup_jsSetOf l)).symm
    _ = l.toFinset.card := by rw [h1]

/-! ## Generic lemmas: JS dictionaries -/

theorem valueOf_bump (st : List (String × Nat)) (k k' : String) :
    valueOf (bump st k) k' = valueOf st k' + (if k' = k then 1 else 0) := by
  induction st with
  | nil =>
    by_cases h : k' = k
    · subst h; simp [bump, valueOf]
    · have h' : ¬k = k' := fun h' => h h'.symm
      simp [bump, valueOf, h, h']
  | cons p rest ih =>
    obtain ⟨k₀, v₀⟩ := p
    by_cases h0 : k₀ = k
    · subst h0
      by_cases h : k₀ = k'
      · subst h
        simp [bump, valueOf]
      · have h' : ¬k' = k₀ := fun h' => h h'.symm
        simp [bump, valueOf, h, h']
    · rw [bump, if_neg h0]
      by_cases h : k₀ = k'
      · subst h
        simp [valueOf, h0]
      · simp [valueOf, h, ih]

theorem keys_bump (st : List (String × Nat)) (k : String) :
    (bump st k).map Prod.fst = addUser (st.map Prod.fst) k := by
  induction st with
  | nil => simp [bump, addUser]
  | cons p rest ih =>
    obtain ⟨k₀, v₀⟩ := p
    by_cases h0 : k₀ = k
    · subst h0
      simp [bump, addUser]
    · have h0' : ¬k = k₀ := fun h' => h0 h'.symm
      rw [bump, if_neg h0]
      simp only [List.map_cons, ih]
      unfold addUser
      by_cases h : k ∈ rest.map Prod.fst
      · have hmem : k ∈ k₀ :: rest.map Prod.fst := List.mem_cons_of_mem _ h
        rw [if_pos h, if_pos hmem]
      · have hmem : k ∉ k₀ :: rest.map Prod.fst := by
          rw [List.mem_cons]
          rintro (h' | h')
          · exact h0' h'
          · exact h h'
        rw [if_neg h, if_neg hmem]
        simp

theorem sum_bump (st : List (String × Nat)) (k : String) :
    ((bump st k).map Prod.snd).sum = ((st.map Prod.snd).sum) + 1 := by
  induction st with
  | nil => simp [bump]
  | cons p rest ih =>
    obtain ⟨k₀, v₀⟩ := p
    by_cases h0 : k₀ = k
    · subst h0
      simp [bump]
      omega
    · rw [bump, if_neg h0]
      simp only [List.map_cons, List.sum_cons, ih]
      omega

/-- An association list with duplicate-free keys is the table of its own
lookup function. -/
theorem assoc_eq_keys_map :
    ∀ (st : List (String × Nat)), (st.map Prod.fst).Nodup →
      st = (st.map Prod.fst).map (fun k => (k, valueOf st k)) := by
  intro st
  induction st with
  | nil => intro _; rfl
  | cons p rest ih =>
    obtain ⟨k₀, v₀⟩ := p
    intro h
    have htail : (rest.map Prod.fst).Nodup := by simpa using h.tail
    have hk0mem : k₀ ∉ rest.map Prod.fst := (List.nodup_cons.mp (by simpa using h)).1
    have hne : ∀ k ∈ rest.map Prod.fst, valueOf ((k₀, v₀) :: rest) k = valueOf rest k := by
      intro k hk
      have hk0k : ¬k₀ = k := fun h' => hk0mem (by rw [h']; exact hk)
      simp [valueOf, hk0k]
    have hrest : rest = (rest.map Prod.fst).map (fun k => (k, valueOf rest k)) := ih htail
    simp only [List.map_cons]
    have hk0 : valueOf ((k₀, v₀) :: rest) k₀ = v₀ := by simp [valueOf]
    rw [hk0]
    refine congrArg _ ?_
    calc rest = (rest.map Prod.fst).map (fun k => (k, valueOf rest k)) := hrest
      _ = (rest.map Prod.fst).map (fun k => (k, valueOf ((k₀, v₀) :: rest) k)) :=
        (List.map_congr_left (fun k hk => by rw [hne k hk])).symm

/-! ## Generic lemmas: counting folds -/

theorem valueOf_foldl_bump (label : SmmLogEntry → String) :
    ∀ (data : List SmmLogEntry) (cs : List (String × Nat)) (k : String),
      valueOf (data.foldl (fun counts entry => bump counts (label entry)) cs) k
        = valueOf cs k + data.countP (fun entry => decide (label entry = k)) := by
  intro data
  induction data with
  | nil => simp
  | cons e t ih =>
    intro cs k
    rw [List.foldl_cons, ih, valueOf_bump, List.countP_cons]
    by_cases h : label e = k
    · simp [h]
      omega
    · have h' : ¬k = label e := fun h' => h h'.symm
      simp [h, h']

theorem keys_foldl_bump (label : SmmLogEntry → String) :
    ∀ (data : List SmmLogEntry) (cs : List (String × Nat)),
      (data.foldl (fun counts entry => bump counts (label entry)) cs).map Prod.fst
        = data.foldl (fun ks entry => addUser ks (label entry)) (cs.map Prod.fst) := by
  intro data
  induction data with
  | nil => simp
  | cons e t ih =>
    intro cs
    rw [List.foldl_cons, List.foldl_cons, ih, keys_bump]

theorem sum_foldl_bump (label : SmmLogEntry → String) :
    ∀ (data : List SmmLogEntry) (cs : List (String × Nat)),
      ((data.foldl (fun counts entry => bump counts (label entry)) cs).map Prod.snd).sum
        = (cs.map Prod.snd).sum + data.length := by
  intro data
  induction data with
  | nil => simp
  | cons e t ih =>
    intro cs
    rw [List.foldl_cons, ih, sum_bump, List.length_cons]
    omega

theorem valueOf_foldl_bumpOpt (f : SmmLogEntry → Option String) :
    ∀ (data : List SmmLogEntry) (cs : List (String × Nat)) (k : String),
      valueOf (data.foldl (fun counts entry =>
          match f entry with
          | some l => bump counts l
          | none => counts) cs) k
        = valueOf cs k + data.countP (fun entry => decide (f entry = some k)) := by
  intro data
  induction data with
  | nil => simp
  | cons e t ih =>
    intro cs k
    rw [List.foldl_cons, List.countP_cons]
    cases hf : f e with
    | none =>
      simp only [hf]
      rw [ih]
      simp
    | some l =>
      simp only [hf]
      rw [ih, valueOf_bump]
      by_cases h : l = k
      · subst h
        simp
        omega
      · have h' : ¬k = l := fun h' => h h'.symm
        simp [h, h']

theorem keys_foldl_bumpOpt (f : SmmLogEntry → Option String) :
    ∀ (data : List SmmLogEntry) (cs : List (String × Nat)),
      (data.foldl (fun counts entry =>
          match f entry with
          | some l => bump counts l
          | none => counts) cs).map Prod.fst
        = (data.filterMap f).foldl addUser (cs.map Prod.fst) := by
  intro data
  induction data with
  | nil => simp
  | cons e t ih =>
    intro cs
    rw [List.foldl_cons]
    cases hf : f e with
    | none =>
      rw [List.filterMap_cons_none hf]
      exact ih cs
    | some l =>
      rw [List.filterMap_cons_some hf, List.foldl_cons, ih, keys_bump]

theorem sum_foldl_bumpOpt (f : SmmLogEntry → Option String) :
    ∀ (data : List SmmLogEntry) (cs : List (String × Nat)),
      ((data.foldl (fun counts entry =>
          match f entry with
          | some l => bump counts l
          | none => counts) cs).map Prod.snd).sum
        = (cs.map Prod.snd).sum + data.countP (fun entry => (f entry).isSome) := by
  intro data
  induction data with
  | nil => simp
  | cons e t ih =>
    intro cs
    rw [List.foldl_cons, List.countP_cons]
    cases hf : f e with
    | none =>
      simp only [hf]
      rw [ih]
      simp
    | some l =>
      simp only [hf]
      rw [ih, sum_bump]
      simp
      omega

/-! ## Generic lemmas: object key enumeration -/

theorem perm_jsObjectKeysOrder {β : Type _} (st : List (String × β)) :
    (jsObjectKeysOrder st).Perm st := by
  unfold jsObjectKeysOrder
  exact ((perm_jsSortBy _).append_right _).trans (List.filter_append_perm _ st)

theorem jsObjectKeysOrder_eq_self {β : Type _} (st : List (String × β))
    (h : ∀ p ∈ st, isArrayIndexKey p.1 = false) : jsObjectKeysOrder st = st := by
  unfold jsObjectKeysOrder
  have h1 : st.filter (fun p => isArrayIndexKey p.1) = [] :=
    List.filter_eq_nil_iff.mpr (fun p hp => by simp [h p hp])
  have h2 : st.filter (fun p => !isArrayIndexKey p.1) = st :=
    List.filter_eq_self.mpr (fun p hp => by simp [h p hp])
  rw [h1, h2]
  simp [jsSortBy]

/-! ## Generic lemmas: ranks in a table -/

theorem pairwise_rankIn_lt : ∀ {l : List String}, l.Nodup →
    l.Pairwise (fun a b => rankIn l a < rankIn l b) := by
  intro l
  induction l with
  | nil => intro _; exact List.Pairwise.nil
  | cons a t ih =>
    intro h
    have hat : a ∉ t := (List.nodup_cons.mp h).1
    have ht : t.Nodup := (List.nodup_cons.mp h).2
    refine List.Pairwise.cons ?_ ?_
    · intro b hb
      have hab : ¬a = b := fun h' => hat (h' ▸ hb)
      simp [rankIn, hab]
    · refine (ih ht).imp_of_mem ?_
      intro x y hx hy hxy
      have hax : ¬a = x := fun h' => hat (h' ▸ hx)
      have hay : ¬a = y := fun h' => hat (h' ▸ hy)
      simp only [rankIn, if_neg hax, if_neg hay]
      omega

/-! ## Claim C1: ingestion invariant -/

/-- **C1.** Every record produced by `parseCSV` has non-empty (trimmed)
`content` and non-empty (trimmed) `time`; a candidate row violating this is
dropped (it never appears in the output), and a row missing a localized
header gets the empty string for the corresponding field. -/
theorem parseCSV_invariant :
    (∀ (rows : List (List (String × String))) (r : SmmLogEntry),
        r ∈ parseCSV rows → r.content ≠ "" ∧ r.time ≠ "")
    ∧ (∀ row : List (String × String),
        row.lookup "问题内容" = none → (normalizeRow row).content = "")
    ∧ (∀ row : List (String × String),
        row.lookup "提问时间" = none → (normalizeRow row).time = "")
    ∧ (∀ row : List (String × String),
        row.lookup "来源" = none → (normalizeRow row).source = "")
    ∧ (∀ (rows : List (List (String × String))) (row : List (String × String)),
        (normalizeRow row).content = "" ∨ (normalizeRow row).time = "" →
        normalizeRow row ∉ parseCSV rows) := by
  have hmain : ∀ (rows : List (List (String × String))) (r : SmmLogEntry),
      r ∈ parseCSV rows → r.content ≠ "" ∧ r.time ≠ "" := by
    intro rows r hr
    rw [parseCSV, List.mem_filter] at hr
    have := hr.2
    simp only [Bool.and_eq_true, decide_eq_true_eq] at this
    exact this
  refine ⟨hmain, ?_, ?_, ?_, ?_⟩
  · intro row h
    simp [normalizeRow, getField, h]
  · intro row h
    simp [normalizeRow, getField, h]
  · intro row h
    simp [normalizeRow, getField, h]
  · intro rows row hbad hmem
    rcases hbad with h | h
    · exact (hmain rows _ hmem).1 h
    · exact (hmain rows _ hmem).2 h

/-- Witness for C1: a concrete non-degenerate row survives ingestion and
satisfies the invariant. -/
theorem parseCSV_invariant_witness :
    (normalizeRow [("问题内容", "你好"), ("提问时间", "2024-01-01 09:15:00")]).content ≠ ""
    ∧ (normalizeRow [("问题内容", "你好"), ("提问时间", "2024-01-01 09:15:00")]).time ≠ "" :=
  parseCSV_invariant.1 [[("问题内容", "你好"), ("提问时间", "2024-01-01 09:15:00")]]
    (normalizeRow [("问题内容", "你好"), ("提问时间", "2024-01-01 09:15:00")]) (by decide)

/-! ## Claim C10: summary statistics -/

/-- **C10.** `getSummaryStats` returns the collection length as
`totalQueries`, the number of distinct `userId` values (the empty string
counting as a value) as `uniqueUsers`, and `totalQueries / uniqueUsers`
(0 when `uniqueUsers` is 0) as `avgQueriesPerUser`. -/
theorem getSummaryStats_ok :
    ∀ data : List SmmLogEntry,
      (getSummaryStats data).totalQueries = data.length
      ∧ (getSummaryStats data).uniqueUsers = (data.map (fun e => e.userId)).toFinset.card
      ∧ (getSummaryStats data).avgQueriesPerUser =
          (if (getSummaryStats data).uniqueUsers = 0 then 0
           else ((getSummaryStats data).totalQueries : ℚ) / ((getSummaryStats data).uniqueUsers : ℚ)) := by
  intro data
  refine ⟨rfl, ?_, ?_⟩
  · exact length_jsSetOf _
  · have hu : (getSummaryStats data).uniqueUsers = (jsSetOf (data.map (fun d => d.userId))).length := rfl
    have ht : (getSummaryStats data).totalQueries = data.length := rfl
    have ha : (getSummaryStats data).avgQueriesPerUser =
        (if 0 < (jsSetOf (data.map (fun d => d.userId))).length then
          ((data.length : ℚ) / ((jsSetOf (data.map (fun d => d.userId))).length : ℚ)) else 0) := rfl
    rw [ha, hu, ht]
    by_cases h : (jsSetOf (data.map (fun d => d.userId))).length = 0
    · rw [if_neg (by omega), if_pos h]
    · rw [if_pos (by omega), if_neg h]

/-! ## Claim C7: user-type partition -/

/-- **C7.** `getUserTypeDistribution` classifies every record into exactly
one of internal / external / unknown (internal iff the internal-user rule
matches, else external iff `company` is non-empty after trim, else
unknown), keeps only non-zero segments in the fixed label order, and the
remaining segment values sum to the collection length. -/
theorem getUserTypeDistribution_partition :
    ∀ data : List SmmLogEntry,
      getUserTypeDistribution data =
        ([⟨"内部员工", data.countP (fun e => isInternalUser e)⟩,
          ⟨"外部客户", data.countP (fun e =>
            !isInternalUser e && decide (e.company ≠ "" ∧ jsTrim e.company ≠ ""))⟩,
          ⟨"未知", data.countP (fun e =>
            !isInternalUser e && !decide (e.company ≠ "" ∧ jsTrim e.company ≠ ""))⟩] :
          List NamedValue).filter (fun item => decide (0 < item.value))
      ∧ ((getUserTypeDistribution data).map (fun nv => nv.value)).sum = data.length := by
  have hfold : ∀ (data : List SmmLogEntry) (acc : Nat × Nat × Nat),
      data.foldl
        (fun (acc : Nat × Nat × Nat) entry =>
          if isInternalUser entry then (acc.1 + 1, acc.2.1, acc.2.2)
          else if entry.company ≠ "" ∧ jsTrim entry.company ≠ "" then (acc.1, acc.2.1 + 1, acc.2.2)
          else (acc.1, acc.2.1, acc.2.2 + 1)) acc
      = (acc.1 + data.countP (fun e => isInternalUser e),
         acc.2.1 + data.countP (fun e =>
           !isInternalUser e && decide (e.company ≠ "" ∧ jsTrim e.company ≠ "")),
         acc.2.2 + data.countP (fun e =>
           !isInternalUser e && !decide (e.company ≠ "" ∧ jsTrim e.company ≠ ""))) := by
    intro data
    induction data with
    | nil => intro acc; simp
    | cons e t ih =>
      intro acc
      rw [List.foldl_cons, List.countP_cons, List.countP_cons, List.countP_cons]
      by_cases h1 : isInternalUser e = true
      · have hp2 : (!isInternalUser e && decide (e.company ≠ "" ∧ jsTrim e.company ≠ "")) = false := by
          rw [h1]; rfl
        have hp3 : (!isInternalUser e && !decide (e.company ≠ "" ∧ jsTrim e.company ≠ "")) = false := by
          rw [h1]; rfl
        rw [if_pos h1, ih, hp2, hp3, h1]
        simp only [Prod.mk.injEq]
        refine ⟨?_, ?_, ?_⟩ <;> simp <;> omega
      · have h1' : isInternalUser e = false := by
          revert h1; cases isInternalUser e <;> simp
        rw [if_neg h1]
        by_cases h2 : e.company ≠ "" ∧ jsTrim e.company ≠ ""
        · have hp2 : (!isInternalUser e && decide (e.company ≠ "" ∧ jsTrim e.company ≠ "")) = true := by
            rw [h1', decide_eq_true h2]; rfl
          have hp3 : (!isInternalUser e && !decide (e.company ≠ "" ∧ jsTrim e.company ≠ "")) = false := by
            rw [h1', decide_eq_true h2]; rfl
          rw [if_pos h2, ih, hp2, hp3, h1']
          simp only [Prod.mk.injEq]
          refine ⟨?_, ?_, ?_⟩ <;> simp <;> omega
        · have hp2 : (!isInternalUser e && decide (e.company ≠ "" ∧ jsTrim e.company ≠ "")) = false := by
            rw [h1', decide_eq_false h2]; rfl
          have hp3 : (!isInternalUser e && !decide (e.company ≠ "" ∧ jsTrim e.company ≠ "")) = true := by
            rw [h1', decide_eq_false h2]; rfl
          rw [if_neg h2, ih, hp2, hp3, h1']
          simp only [Prod.mk.injEq]
          refine ⟨?_, ?_, ?_⟩ <;> simp <;> omega
  have hsum3 : ∀ data : List SmmLogEntry,
      data.countP (fun e => isInternalUser e)
        + data.countP (fun e => !isInternalUser e && decide (e.company ≠ "" ∧ jsTrim e.company ≠ ""))
        + data.countP (fun e => !isInternalUser e && !decide (e.company ≠ "" ∧ jsTrim e.company ≠ ""))
      = data.length := by
    intro data
    induction data with
    | nil => simp
    | cons e t ih =>
      rw [List.countP_cons, List.countP_cons, List.countP_cons, List.length_cons]
      by_cases h1 : isInternalUser e = true
      · have hp2 : (!isInternalUser e && decide (e.company ≠ "" ∧ jsTrim e.company ≠ "")) = false := by
          rw [h1]; rfl
        have hp3 : (!isInternalUser e && !decide (e.company ≠ "" ∧ jsTrim e.company ≠ "")) = false := by
          rw [h1]; rfl
        rw [hp2, hp3, h1]
        simp at ih ⊢ <;> omega
      · have h1' : isInternalUser e = false := by
          revert h1; cases isInternalUser e <;> simp
        by_cases h2 : e.company ≠ "" ∧ jsTrim e.company ≠ ""
        · have hp2 : (!isInternalUser e && decide (e.company ≠ "" ∧ jsTrim e.company ≠ "")) = true := by
            rw [h1', decide_eq_true h2]; rfl
          have hp3 : (!isInternalUser e && !decide (e.company ≠ "" ∧ jsTrim e.company ≠ "")) = false := by
            rw [h1', decide_eq_true h2]; rfl
          rw [hp2, hp3, h1']
          simp at ih ⊢ <;> omega
        · have hp2 : (!isInternalUser e && decide (e.company ≠ "" ∧ jsTrim e.company ≠ "")) = false := by
            rw [h1', decide_eq_false h2]; rfl
          have hp3 : (!isInternalUser e && !decide (e.company ≠ "" ∧ jsTrim e.company ≠ "")) = true := by
            rw [h1', decide_eq_false h2]; rfl
          rw [hp2, hp3, h1']
          simp at ih ⊢ <;> omega
  have hsum_filter : ∀ l : List NamedValue,
      ((l.filter (fun item => decide (0 < item.value))).map (fun nv => nv.value)).sum
        = (l.map (fun nv => nv.value)).sum := by
    intro l
    induction l with
    | nil => rfl
    | cons nv t ih =>
      by_cases h : 0 < nv.value
      · rw [List.filter_cons, if_pos (decide_eq_true h), List.map_cons, List.sum_cons, ih,
          List.map_cons, List.sum_cons]
      · have hz : nv.value = 0 := by omega
        rw [List.filter_cons, if_neg (by rw [decide_eq_false h]; simp), ih,
          List.map_cons, List.sum_cons, hz]
        omega
  intro data
  have heq : getUserTypeDistribution data =
      ([⟨"内部员工", data.countP (fun e => isInternalUser e)⟩,
        ⟨"外部客户", data.countP (fun e =>
          !isInternalUser e && decide (e.company ≠ "" ∧ jsTrim e.company ≠ ""))⟩,
        ⟨"未知", data.countP (fun e =>
          !isInternalUser e && !decide (e.company ≠ "" ∧ jsTrim e.company ≠ ""))⟩] :
        List NamedValue).filter (fun item => decide (0 < item.value)) := by
    unfold getUserTypeDistribution
    rw [hfold data (0, 0, 0)]
    simp only [Nat.zero_add]
  refine ⟨heq, ?_⟩
  rw [heq, hsum_filter]
  simp only [List.map_cons, List.map_nil, List.sum_cons, List.sum_nil]
  have := hsum3 data
  omega

/-! ## Claim C2: source distribution -/

theorem foldl_addUser_of_mem :
    ∀ (l ks : List String), (∀ x ∈ l, x ∈ ks) → l.foldl addUser ks = ks := by
  intro l
  induction l with
  | nil => intro ks _; rfl
  | cons a t ih =>
    intro ks h
    rw [List.foldl_cons]
    have ha : addUser ks a = ks := by
      unfold addUser
      rw [if_pos (h a (List.mem_cons_self _ _))]
    rw [ha]
    exact ih ks (fun x hx => h x (List.mem_cons_of_mem _ hx))

theorem valueOf_zero_table : ∀ (vocab : List String) (k : String),
    valueOf (vocab.map (fun l => (l, 0))) k = 0 := by
  intro vocab
  induction vocab with
  | nil => intro k; rfl
  | cons a t ih =>
    intro k
    by_cases h : a = k
    · simp [valueOf, h]
    · simp [valueOf, h, ih]

theorem snd_eq_valueOf_of_mem {st : List (String × Nat)} (h : (st.map Prod.fst).Nodup)
    {p : String × Nat} (hp : p ∈ st) : p.2 = valueOf st p.1 := by
  conv at hp => rw [assoc_eq_keys_map st h]
  rcases List.mem_map.mp hp with ⟨k, _, hkp⟩
  rw [← hkp]

/-- Internal characterization of `getSourceDistribution`: its dictionary
has one key per first-seen label, the value at each key counts the records
with that label, and the values total the collection length. -/
theorem getSourceDistribution_eq (data : List SmmLogEntry) :
    ∃ counts : List (String × Nat),
      getSourceDistribution data
          = (jsObjectKeysOrder counts).map (fun p => (⟨p.1, p.2⟩ : NamedValue))
      ∧ counts.map Prod.fst
          = jsSetOf (data.map (fun e => if e.source = "" then "Unknown" else e.source))
      ∧ (∀ k, valueOf counts k
          = data.countP (fun e => decide ((if e.source = "" then "Unknown" else e.source) = k)))
      ∧ (counts.map Prod.snd).sum = data.length := by
  refine ⟨data.foldl (fun counts entry =>
      bump counts (if entry.source = "" then "Unknown" else entry.source)) [], ?_, ?_, ?_, ?_⟩
  · rfl
  · have h := keys_foldl_bump (fun entry =>
      if entry.source = "" then "Unknown" else entry.source) data []
    rw [jsSetOf, List.foldl_map]
    exact h
  · intro k
    have h := valueOf_foldl_bump (fun entry =>
      if entry.source = "" then "Unknown" else entry.source) data [] k
    rw [show valueOf [] k = (0 : Nat) from rfl, Nat.zero_add] at h
    exact h
  · have h := sum_foldl_bump (fun entry =>
      if entry.source = "" then "Unknown" else entry.source) data []
    rw [show ((([] : List (String × Nat)).map Prod.snd).sum = (0 : Nat)) from rfl,
      Nat.zero_add] at h
    exact h

/-- **C2.** The values of `getSourceDistribution` sum to
`getSummaryStats`'s `totalQueries`, which is the collection length; labels
are pairwise distinct (each record is counted under exactly one label), the
value at each label counts exactly the records carrying it, and every
record's label — `"Unknown"` for an empty `source` — occurs in the
output. -/
theorem sourceDistribution_sum_totalQueries :
    ∀ data : List SmmLogEntry,
      ((getSourceDistribution data).map (fun nv => nv.value)).sum
          = (getSummaryStats data).totalQueries
      ∧ (getSummaryStats data).totalQueries = data.length
      ∧ ((getSourceDistribution data).map (fun nv => nv.name)).Nodup
      ∧ (∀ nv ∈ getSourceDistribution data,
          nv.value = data.countP (fun e =>
            decide ((if e.source = "" then "Unknown" else e.source) = nv.name)))
      ∧ ∀ e ∈ data,
          (if e.source = "" then "Unknown" else e.source)
            ∈ (getSourceDistribution data).map (fun nv => nv.name) := by
  intro data
  obtain ⟨counts, hd, hkeys, hval, hsum⟩ := getSourceDistribution_eq data
  have hknodup : (counts.map Prod.fst).Nodup := by
    rw [hkeys]; exact nodup_jsSetOf _
  have hnames : ((getSourceDistribution data).map (fun nv => nv.name)).Perm (counts.map Prod.fst) := by
    rw [hd, List.map_map]
    exact (perm_jsObjectKeysOrder counts).map _
  refine ⟨?_, rfl, ?_, ?_, ?_⟩
  · have h1 : ((getSourceDistribution data).map (fun nv => nv.value)).sum
        = (counts.map Prod.snd).sum := by
      rw [hd, List.map_map]
      exact ((perm_jsObjectKeysOrder counts).map _).sum_eq
    exact h1.trans hsum
  · exact hnames.nodup_iff.mpr hknodup
  · intro nv hnv
    rw [hd] at hnv
    rcases List.mem_map.mp hnv with ⟨p, hp, hpe⟩
    have hpc : p ∈ counts := (perm_jsObjectKeysOrder counts).mem_iff.mp hp
    have h2 := snd_eq_valueOf_of_mem hknodup hpc
    rw [← hpe]
    show p.2 = _
    rw [h2, hval p.1]
  · intro e he
    refine hnames.mem_iff.mpr ?_
    rw [hkeys]
    exact mem_jsSetOf.mpr (List.mem_map_of_mem _ he)

/-- Witness for C2: the value and membership clauses at a concrete
collection. -/
theorem sourceDistribution_witness :
    ((⟨"Unknown", 2⟩ : NamedValue).value =
      ([⟨"", "q", "t", "", "u", "", "", "", "", "", ""⟩,
        ⟨"", "q", "t", "web", "u", "", "", "", "", "", ""⟩,
        ⟨"", "q", "t", "", "u", "", "", "", "", "", ""⟩] : List SmmLogEntry).countP
        (fun e => decide ((if e.source = "" then "Unknown" else e.source) = (⟨"Unknown", 2⟩ : NamedValue).name))) :=
  (sourceDistribution_sum_totalQueries
      [⟨"", "q", "t", "", "u", "", "", "", "", "", ""⟩,
       ⟨"", "q", "t", "web", "u", "", "", "", "", "", ""⟩,
       ⟨"", "q", "t", "", "u", "", "", "", "", "", ""⟩]).2.2.2.1
    ⟨"Unknown", 2⟩ (by decide)

/-! ## Claim C3: intent classification -/

theorem classifyIntent_mem_intentLabels : ∀ c : String, classifyIntent c ∈ intentLabels := by
  intro c
  unfold classifyIntent
  cases h : intentTable.find? (fun p => intentMatch p.2 c) with
  | none =>
    unfold intentLabels
    exact List.mem_append_right _ (List.mem_singleton.mpr rfl)
  | some p =>
    unfold intentLabels
    exact List.mem_append_left _ (List.mem_map_of_mem _ (List.mem_of_find?_eq_some h))

/-- Internal characterization of `classifyIntents`' dictionary. -/
theorem classifyIntents_eq (data : List SmmLogEntry) :
    ∃ counts : List (String × Nat),
      classifyIntents data = (jsObjectKeysOrder counts).map (fun p => (⟨p.1, p.2⟩ : NamedValue))
      ∧ counts.map Prod.fst = intentLabels
      ∧ (∀ k, valueOf counts k = data.countP (fun e => decide (classifyIntent e.content = k)))
      ∧ (counts.map Prod.snd).sum = data.length := by
  refine ⟨data.foldl (fun counts entry => bump counts (classifyIntent entry.content))
      (intentLabels.map (fun l => (l, 0))), ?_, ?_, ?_, ?_⟩
  · rfl
  · have h := keys_foldl_bump (fun entry => classifyIntent entry.content) data
      (intentLabels.map (fun l => (l, 0)))
    have hinit : ((intentLabels.map (fun l => (l, 0))).map Prod.fst) = intentLabels := by
      rw [List.map_map]
      exact List.map_id intentLabels
    rw [hinit] at h
    rw [h, ← List.foldl_map (fun entry => classifyIntent entry.content) addUser data intentLabels]
    exact foldl_addUser_of_mem _ _ (by
      intro x hx
      rcases List.mem_map.mp hx with ⟨e, _, he⟩
      exact he ▸ classifyIntent_mem_intentLabels e.content)
  · intro k
    have h := valueOf_foldl_bump (fun entry => classifyIntent entry.content) data
      (intentLabels.map (fun l => (l, 0))) k
    rw [valueOf_zero_table, Nat.zero_add] at h
    exact h
  · have h := sum_foldl_bump (fun entry => classifyIntent entry.content) data
      (intentLabels.map (fun l => (l, 0)))
    have hz : (((intentLabels.map (fun l => (l, 0))).map Prod.snd).sum) = 0 := by decide
    rw [hz, Nat.zero_add] at h
    exact h

/-- **C3.** `classifyIntents` assigns every record to exactly one bucket
(first matching pattern in priority order, catch-all otherwise): the output
lists all six fixed labels in declaration order, the value at each label
counts exactly the records classified to it, and the values sum to the
collection length. -/
theorem classifyIntents_ok :
    ∀ data : List SmmLogEntry,
      (classifyIntents data).map (fun nv => nv.name)
          = ["闲聊/问候", "行情/价格", "趋势/预测", "数据/库存", "知识/百科", "其他"]
      ∧ ((classifyIntents data).map (fun nv => nv.value)).sum = data.length
      ∧ (∀ nv ∈ classifyIntents data,
          nv.value = data.countP (fun e => decide (classifyIntent e.content = nv.name)))
      ∧ ∀ c : String, classifyIntent c ∈ intentLabels := by
  intro data
  obtain ⟨counts, hd, hkeys, hval, hsum⟩ := classifyIntents_eq data
  have hnoidx : ∀ p ∈ counts, isArrayIndexKey p.1 = false := by
    intro p hp
    have h1 : p.1 ∈ intentLabels := by
      rw [← hkeys]
      exact List.mem_map_of_mem _ hp
    have h2 : ∀ k ∈ intentLabels, isArrayIndexKey k = false := by decide
    exact h2 p.1 h1
  have hid : jsObjectKeysOrder counts = counts := jsObjectKeysOrder_eq_self counts hnoidx
  have hknodup : (counts.map Prod.fst).Nodup := by
    rw [hkeys]
    decide
  refine ⟨?_, ?_, ?_, classifyIntent_mem_intentLabels⟩
  · rw [hd, hid, List.map_map]
    show counts.map Prod.fst = _
    rw [hkeys]
    decide
  · rw [hd, hid, List.map_map]
    show (counts.map Prod.snd).sum = _
    exact hsum
  · intro nv hnv
    rw [hd, hid] at hnv
    rcases List.mem_map.mp hnv with ⟨p, hp, hpe⟩
    have h2 := snd_eq_valueOf_of_mem hknodup hp
    rw [← hpe]
    show p.2 = _
    rw [h2, hval p.1]

/-- Witness for C3: the membership clause at a concrete collection. -/
theorem classifyIntents_witness :
    (⟨"闲聊/问候", 1⟩ : NamedValue).value =
      ([⟨"", "你好", "2024-01-01 09:15:00", "", "u1", "", "", "", "", "", ""⟩] :
        List SmmLogEntry).countP
        (fun e => decide (classifyIntent e.content = (⟨"闲聊/问候", 1⟩ : NamedValue).name)) :=
  (classifyIntents_ok [⟨"", "你好", "2024-01-01 09:15:00", "", "u1", "", "", "", "", "", ""⟩]).2.2.1
    ⟨"闲聊/问候", 1⟩ (by decide)

/-! ## Claim C4: hourly histogram -/

theorem hourOf_lt_24 : ∀ (t : String) (h : Nat), hourOf t = some h → h < 24 := by
  intro t h he
  unfold hourOf at he
  split at he
  · exact absurd he (by simp)
  · split at he
    · exact absurd he (by simp)
    · next hh =>
      split at he
      · next hc =>
        have h2 := Option.some.inj he
        omega
      · exact absurd he (by simp)

theorem length_hourlyFold :
    ∀ (data : List SmmLogEntry) (counts : List Nat),
      (data.foldl (fun counts entry =>
        match hourOf entry.time with
        | some h => counts.set h (counts.getD h 0 + 1)
        | none => counts) counts).length = counts.length := by
  intro data
  induction data with
  | nil => intro counts; rfl
  | cons e t ih =>
    intro counts
    rw [List.foldl_cons]
    cases hf : hourOf e.time with
    | none =>
      simp only [hf]
      exact ih counts
    | some h' =>
      simp only [hf]
      rw [ih, List.length_set]

theorem getD_hourlyFold :
    ∀ (data : List SmmLogEntry) (counts : List Nat), counts.length = 24 →
      ∀ h : Nat, h < 24 →
        (data.foldl (fun counts entry =>
          match hourOf entry.time with
          | some h => counts.set h (counts.getD h 0 + 1)
          | none => counts) counts).getD h 0
        = counts.getD h 0 + data.countP (fun e => decide (hourOf e.time = some h)) := by
  intro data
  induction data with
  | nil => intro counts _ h _; simp
  | cons e t ih =>
    intro counts hlen h hh
    rw [List.foldl_cons, List.countP_cons]
    cases hf : hourOf e.time with
    | none =>
      simp only [hf]
      rw [ih counts hlen h hh]
      have hpe : (decide ((none : Option Nat) = some h)) = false := by simp
      rw [hpe, if_neg Bool.false_ne_true, Nat.add_zero]
    | some h' =>
      simp only [hf]
      have hlen' : (counts.set h' (counts.getD h' 0 + 1)).length = 24 := by
        rw [List.length_set]; exact hlen
      rw [ih _ hlen' h hh]
      by_cases hhh : h' = h
      · subst hhh
        have hset : (counts.set h' (counts.getD h' 0 + 1)).getD h' 0 = counts.getD h' 0 + 1 := by
          rw [List.getD_eq_getElem?_getD, List.getElem?_set_self (by omega), Option.getD_some]
        rw [hset]
        have hpe : (decide ((some h' : Option Nat) = some h')) = true := by simp
        rw [hpe, if_pos (Eq.refl true)]
        omega
      · have hset : (counts.set h' (counts.getD h' 0 + 1)).getD h 0 = counts.getD h 0 := by
          rw [List.getD_eq_getElem?_getD, List.getElem?_set_ne hhh, ← List.getD_eq_getElem?_getD]
        rw [hset]
        have hpe : (decide ((some h' : Option Nat) = some h)) = false := by
          simp [hhh]
        rw [hpe, if_neg Bool.false_ne_true]
        omega

theorem sum_set_getD : ∀ (l : List Nat) (h : Nat), h < l.length →
    (l.set h (l.getD h 0 + 1)).sum = l.sum + 1 := by
  intro l
  induction l with
  | nil => intro h hh; simp at hh
  | cons x t ih =>
    intro h hh
    cases h with
    | zero =>
      show ((x + 1) :: t).sum = (x :: t).sum + 1
      rw [List.sum_cons, List.sum_cons]
      omega
    | succ n =>
      show (x :: t.set n (t.getD n 0 + 1)).sum = (x :: t).sum + 1
      rw [List.length_cons] at hh
      rw [List.sum_cons, List.sum_cons, ih n (by omega)]
      omega

theorem sum_hourlyFold :
    ∀ (data : List SmmLogEntry) (counts : List Nat), counts.length = 24 →
      (data.foldl (fun counts entry =>
        match hourOf entry.time with
        | some h => counts.set h (counts.getD h 0 + 1)
        | none => counts) counts).sum
      = counts.sum + data.countP (fun e => (hourOf e.time).isSome) := by
  intro data
  induction data with
  | nil => intro counts _; simp
  | cons e t ih =>
    intro counts hlen
    rw [List.foldl_cons, List.countP_cons]
    cases hf : hourOf e.time with
    | none =>
      simp only [hf]
      rw [ih counts hlen]
      simp
    | some h' =>
      simp only [hf]
      have h24 : h' < 24 := hourOf_lt_24 e.time h' hf
      rw [ih (counts.set h' (counts.getD h' 0 + 1)) (by rw [List.length_set]; exact hlen),
        sum_set_getD counts h' (by omega)]
      have hio : ((some h' : Option Nat)).isSome = true := rfl
      rw [hio, if_pos (Eq.refl true)]
      omega

theorem length_mapWithIdx {α β : Type _} (f : Nat → α → β) :
    ∀ (l : List α) (i : Nat), (mapWithIdx f i l).length = l.length := by
  intro l
  induction l with
  | nil => intro i; rfl
  | cons a t ih =>
    intro i
    rw [mapWithIdx, List.length_cons, List.length_cons, ih]

theorem get?_mapWithIdx {α β : Type _} (f : Nat → α → β) :
    ∀ (l : List α) (i j : Nat), (mapWithIdx f i l).get? j = (l.get? j).map (f (i + j)) := by
  intro l
  induction l with
  | nil => intro i j; rfl
  | cons a t ih =>
    intro i j
    cases j with
    | zero => rw [mapWithIdx]; rfl
    | succ n =>
      rw [mapWithIdx]
      show (mapWithIdx f (i + 1) t).get? n = (t.get? n).map (f (i + (n + 1)))
      rw [ih (i + 1) n, show i + 1 + n = i + (n + 1) from by omega]

theorem map_count_mapWithIdx :
    ∀ (l : List Nat) (i : Nat),
      ((mapWithIdx (fun hour count => (⟨Nat.repr hour ++ ":00", count⟩ : HourlyStats)) i l).map
        (fun s => s.count)) = l := by
  intro l
  induction l with
  | nil => intro i; rfl
  | cons x t ih =>
    intro i
    rw [mapWithIdx, List.map_cons, ih]

theorem getD_replicate_zero : ∀ (n h : Nat), (List.replicate n (0 : Nat)).getD h 0 = 0 := by
  intro n
  induction n with
  | zero => intro h; cases h <;> rfl
  | succ m ih =>
    intro h
    cases h with
    | zero => rfl
    | succ k => exact ih k

/-- **C4.** `getHourlyStats` returns exactly 24 entries, one per hour
0–23 in order with label `"H:00"`; the count at hour `h` is exactly the
number of records whose extracted hour (the `parseInt` value of the text
before the first `':'` of the timestamp's second space-separated field,
kept when in `[0,24)`) is `h`; records with no extractable hour are
skipped, so the 24 counts sum to at most the collection length. -/
theorem getHourlyStats_ok :
    ∀ data : List SmmLogEntry,
      (getHourlyStats data).length = 24
      ∧ (∀ h : Nat, h < 24 →
          (getHourlyStats data).get? h
            = some ⟨Nat.repr h ++ ":00",
                data.countP (fun e => decide (hourOf e.time = some h))⟩)
      ∧ ((getHourlyStats data).map (fun s => s.count)).sum ≤ data.length := by
  intro data
  have hdef : getHourlyStats data =
      mapWithIdx (fun hour count => (⟨Nat.repr hour ++ ":00", count⟩ : HourlyStats)) 0
        (data.foldl (fun counts entry =>
          match hourOf entry.time with
          | some h => counts.set h (counts.getD h 0 + 1)
          | none => counts) (List.replicate 24 0)) := rfl
  have hflen : (data.foldl (fun counts entry =>
      match hourOf entry.time with
      | some h => counts.set h (counts.getD h 0 + 1)
      | none => counts) (List.replicate 24 0)).length = 24 := by
    rw [length_hourlyFold]
    exact List.length_replicate 24 0
  refine ⟨?_, ?_, ?_⟩
  · rw [hdef, length_mapWithIdx, hflen]
  · intro h hh
    rw [hdef, get?_mapWithIdx]
    have h1 : (data.foldl (fun counts entry =>
        match hourOf entry.time with
        | some h => counts.set h (counts.getD h 0 + 1)
        | none => counts) (List.replicate 24 0)).get? h
        = some ((data.foldl (fun counts entry =>
            match hourOf entry.time with
            | some h => counts.set h (counts.getD h 0 + 1)
            | none => counts) (List.replicate 24 0)).getD h 0) := by
      rw [List.get?_eq_getElem?, List.getD_eq_getElem?_getD,
        List.getElem?_eq_getElem (by rw [hflen]; exact hh)]
      rfl
    rw [h1, getD_hourlyFold data _ (List.length_replicate 24 0) h hh, getD_replicate_zero]
    simp
  · rw [hdef, map_count_mapWithIdx, sum_hourlyFold data _ (List.length_replicate 24 0)]
    have hz : (List.replicate 24 (0 : Nat)).sum = 0 := by simp
    rw [hz, Nat.zero_add]
    exact List.countP_le_length _

/-- Witness for C4: slot 9 of a concrete one-record collection. -/
theorem getHourlyStats_witness :
    (getHourlyStats [⟨"", "你好", "2024-01-01 09:15:00", "", "u1", "", "", "", "", "", ""⟩]).get? 9
      = some ⟨Nat.repr 9 ++ ":00",
          ([⟨"", "你好", "2024-01-01 09:15:00", "", "u1", "", "", "", "", "", ""⟩] :
            List SmmLogEntry).countP (fun e => decide (hourOf e.time = some 9))⟩ :=
  (getHourlyStats_ok [⟨"", "你好", "2024-01-01 09:15:00", "", "u1", "", "", "", "", "", ""⟩]).2.1
    9 (by omega)

/-! ## Claim C9: multi-label distributions -/

theorem keys_vocab_inner (e : SmmLogEntry) :
    ∀ (vs : List String) (cs : List (String × Nat)),
      (∀ m ∈ vs, m ∈ cs.map Prod.fst) →
      (vs.foldl (fun counts m => if containsStr e.content m then bump counts m else counts) cs).map
        Prod.fst = cs.map Prod.fst := by
  intro vs
  induction vs with
  | nil => intro cs _; rfl
  | cons m t ih =>
    intro cs h
    rw [List.foldl_cons]
    by_cases hc : containsStr e.content m = true
    · rw [if_pos hc]
      have hk : (bump cs m).map Prod.fst = cs.map Prod.fst := by
        rw [keys_bump]
        unfold addUser
        rw [if_pos (h m (List.mem_cons_self _ _))]
      rw [ih (bump cs m) (fun x hx => by rw [hk]; exact h x (List.mem_cons_of_mem _ hx))]
      exact hk
    · rw [if_neg hc]
      exact ih cs (fun x hx => h x (List.mem_cons_of_mem _ hx))

theorem valueOf_vocab_inner (e : SmmLogEntry) :
    ∀ (vs : List String), vs.Nodup → ∀ (cs : List (String × Nat)) (k : String),
      valueOf
        (vs.foldl (fun counts m => if containsStr e.content m then bump counts m else counts) cs) k
      = valueOf cs k + (if k ∈ vs ∧ containsStr e.content k = true then 1 else 0) := by
  intro vs
  induction vs with
  | nil => intro _ cs k; simp
  | cons m t ih =>
    intro hnd cs k
    rw [List.foldl_cons]
    have hmt : m ∉ t := (List.nodup_cons.mp hnd).1
    have hnd' : t.Nodup := (List.nodup_cons.mp hnd).2
    by_cases hc : containsStr e.content m = true
    · rw [if_pos hc, ih hnd' (bump cs m) k, valueOf_bump]
      by_cases hk : k = m
      · subst hk
        rw [if_pos rfl, if_neg (fun hx => hmt hx.1), if_pos ⟨List.mem_cons_self _ _, hc⟩]
      · rw [if_neg hk]
        by_cases hkt : k ∈ t ∧ containsStr e.content k = true
        · rw [if_pos hkt, if_pos ⟨List.mem_cons_of_mem _ hkt.1, hkt.2⟩]
        · rw [if_neg hkt, if_neg (fun hx => by
            rcases List.mem_cons.mp hx.1 with h' | h'
            · exact hk h'
            · exact hkt ⟨h', hx.2⟩)]
    · rw [if_neg hc, ih hnd' cs k]
      by_cases hkt : k ∈ t ∧ containsStr e.content k = true
      · rw [if_pos hkt, if_pos ⟨List.mem_cons_of_mem _ hkt.1, hkt.2⟩]
      · rw [if_neg hkt, if_neg (fun hx => by
          rcases List.mem_cons.mp hx.1 with h' | h'
          · rw [h'] at hx
            exact hc hx.2
          · exact hkt ⟨h', hx.2⟩)]

theorem keys_vocabCounts (vocab : List String) :
    ∀ (data : List SmmLogEntry) (cs : List (String × Nat)),
      (∀ m ∈ vocab, m ∈ cs.map Prod.fst) →
      (data.foldl (fun counts entry =>
        vocab.foldl (fun counts m => if containsStr entry.content m then bump counts m else counts)
          counts) cs).map Prod.fst = cs.map Prod.fst := by
  intro data
  induction data with
  | nil => intro cs _; rfl
  | cons e t ih =>
    intro cs h
    rw [List.foldl_cons]
    have hk := keys_vocab_inner e vocab cs h
    rw [ih _ (fun m hm => by rw [hk]; exact h m hm)]
    exact hk

theorem valueOf_vocabCounts (vocab : List String) (hnd : vocab.Nodup) :
    ∀ (data : List SmmLogEntry) (cs : List (String × Nat)) (k : String), k ∈ vocab →
      valueOf (data.foldl (fun counts entry =>
        vocab.foldl (fun counts m => if containsStr entry.content m then bump counts m else counts)
          counts) cs) k
      = valueOf cs k + data.countP (fun e => containsStr e.content k) := by
  intro data
  induction data with
  | nil => intro cs k _; simp
  | cons e t ih =>
    intro cs k hkv
    rw [List.foldl_cons, List.countP_cons, ih _ k hkv, valueOf_vocab_inner e vocab hnd cs k]
    by_cases hc : containsStr e.content k = true
    · rw [if_pos ⟨hkv, hc⟩, if_pos hc]
      omega
    · rw [if_neg (fun hx => hc hx.2), if_neg hc]
      omega

/-- The dictionary of the shared multi-label counting loop is exactly the
vocabulary table with per-term record counts. -/
theorem vocabCounts_eq (vocab : List String) (hnd : vocab.Nodup) (data : List SmmLogEntry) :
    vocabCounts vocab data
      = vocab.map (fun m => (m, data.countP (fun e => containsStr e.content m))) := by
  have hinit : ((vocab.map (fun m => (m, 0))).map Prod.fst) = vocab := by
    rw [List.map_map]
    exact List.map_id vocab
  have hkeys : (vocabCounts vocab data).map Prod.fst = vocab := by
    unfold vocabCounts
    rw [keys_vocabCounts vocab data _ (by rw [hinit]; exact fun m hm => hm), hinit]
  have hknodup : ((vocabCounts vocab data).map Prod.fst).Nodup := by rw [hkeys]; exact hnd
  have h1 := assoc_eq_keys_map (vocabCounts vocab data) hknodup
  rw [hkeys] at h1
  rw [h1]
  refine List.map_congr_left ?_
  intro m hm
  have h2 : valueOf (vocabCounts vocab data) m
      = data.countP (fun e => containsStr e.content m) := by
    unfold vocabCounts
    rw [valueOf_vocabCounts vocab hnd data _ m hm, valueOf_zero_table, Nat.zero_add]
  rw [h2]

theorem natSortTotal {γ : Type _} (f : γ → Nat) :
    ∀ a b : γ, (decide (f b ≤ f a)) = true ∨ (decide (f a ≤ f b)) = true := by
  intro a b
  rcases Nat.le_total (f b) (f a) with h | h
  · exact Or.inl (decide_eq_true h)
  · exact Or.inr (decide_eq_true h)

theorem natSortTrans {γ : Type _} (f : γ → Nat) :
    ∀ a b c : γ, (decide (f b ≤ f a)) = true → (decide (f c ≤ f b)) = true →
      (decide (f c ≤ f a)) = true := by
  intro a b c h1 h2
  exact decide_eq_true (Nat.le_trans (of_decide_eq_true h2) (of_decide_eq_true h1))

/-- **C9.** `getMetalDistribution` and `getTopKeywords` count, per fixed
vocabulary term, the records whose `content` contains the term as a
case-sensitive substring; both return exactly the terms with positive
count, sorted descending by count, ties in original table order. -/
theorem multiLabel_distributions_ok :
    ∀ data : List SmmLogEntry,
      (∀ nv ∈ getMetalDistribution data,
          nv.name ∈ metals
          ∧ nv.value = data.countP (fun e => containsStr e.content nv.name)
          ∧ 0 < nv.value)
      ∧ (∀ m ∈ metals, 0 < data.countP (fun e => containsStr e.content m) →
          m ∈ (getMetalDistribution data).map (fun nv => nv.name))
      ∧ (getMetalDistribution data).Pairwise (fun a b =>
          b.value < a.value ∨ (a.value = b.value ∧ rankIn metals a.name < rankIn metals b.name))
      ∧ (∀ kf ∈ getTopKeywords data,
          kf.keyword ∈ keywordTable
          ∧ kf.count = data.countP (fun e => containsStr e.content kf.keyword)
          ∧ 0 < kf.count)
      ∧ (∀ m ∈ keywordTable, 0 < data.countP (fun e => containsStr e.content m) →
          m ∈ (getTopKeywords data).map (fun kf => kf.keyword))
      ∧ (getTopKeywords data).Pairwise (fun a b =>
          b.count < a.count
          ∨ (a.count = b.count ∧ rankIn keywordTable a.keyword < rankIn keywordTable b.keyword)) := by
  intro data
  have hndM : metals.Nodup := by decide
  have hndK : keywordTable.Nodup := by decide
  have htblM := vocabCounts_eq metals hndM data
  have htblK := vocabCounts_eq keywordTable hndK data
  have hnoidxM : ∀ p ∈ vocabCounts metals data, isArrayIndexKey p.1 = false := by
    intro p hp
    rw [htblM] at hp
    rcases List.mem_map.mp hp with ⟨m, hm, hmp⟩
    have hall : ∀ m ∈ metals, isArrayIndexKey m = false := by decide
    rw [← hmp]
    exact hall m hm
  have hnoidxK : ∀ p ∈ vocabCounts keywordTable data, isArrayIndexKey p.1 = false := by
    intro p hp
    rw [htblK] at hp
    rcases List.mem_map.mp hp with ⟨m, hm, hmp⟩
    have hall : ∀ m ∈ keywordTable, isArrayIndexKey m = false := by decide
    rw [← hmp]
    exact hall m hm
  have hidM := jsObjectKeysOrder_eq_self _ hnoidxM
  have hidK := jsObjectKeysOrder_eq_self _ hnoidxK
  have hdefM : getMetalDistribution data =
      (jsSortBy (fun a b => decide (b.2 ≤ a.2))
        ((jsObjectKeysOrder (vocabCounts metals data)).filter (fun p => decide (0 < p.2)))).map
        (fun p => (⟨p.1, p.2⟩ : NamedValue)) := rfl
  have hdefK : getTopKeywords data =
      ((jsSortBy (fun a b => decide (b.count ≤ a.count))
        ((jsObjectKeysOrder (vocabCounts keywordTable data)).map
          (fun p => ({ keyword := p.1, count := p.2 } : KeywordFrequency)))).filter
        (fun k => decide (0 < k.count))) := rfl
  refine ⟨?_, ?_, ?_, ?_, ?_, ?_⟩
  · intro nv hnv
    rw [hdefM, hidM] at hnv
    rcases List.mem_map.mp hnv with ⟨p, hp, hpe⟩
    have hpf := (perm_jsSortBy _).mem_iff.mp hp
    rcases List.mem_filter.mp hpf with ⟨hpt, hppos⟩
    rw [htblM] at hpt
    rcases List.mem_map.mp hpt with ⟨m, hm, hmp⟩
    have hpos : 0 < p.2 := of_decide_eq_true hppos
    rw [← hpe, ← hmp]
    rw [← hmp] at hpos
    exact ⟨hm, rfl, hpos⟩
  · intro m hm hpos
    have hmem : (m, data.countP (fun e => containsStr e.content m)) ∈ vocabCounts metals data := by
      rw [htblM]
      exact List.mem_map_of_mem _ hm
    have hf : (m, data.countP (fun e => containsStr e.content m))
        ∈ (vocabCounts metals data).filter (fun p => decide (0 < p.2)) :=
      List.mem_filter.mpr ⟨hmem, decide_eq_true hpos⟩
    have hs := (@perm_jsSortBy _ (fun a b => decide (b.2 ≤ a.2))
      ((vocabCounts metals data).filter (fun p => decide (0 < p.2)))).mem_iff.mpr hf
    refine List.mem_map.mpr ⟨⟨m, data.countP (fun e => containsStr e.content m)⟩, ?_, rfl⟩
    rw [hdefM, hidM]
    exact List.mem_map_of_mem _ hs
  · rw [hdefM, hidM]
    have hK : ((vocabCounts metals data).filter (fun p => decide (0 < p.2))).Pairwise
        (fun p q => rankIn metals p.1 < rankIn metals q.1) := by
      refine List.Pairwise.sublist (List.filter_sublist _) ?_
      rw [htblM]
      exact List.pairwise_map.mpr (pairwise_rankIn_lt hndM)
    have hR := pairwise_jsSortBy (natSortTotal (fun p : String × Nat => p.2))
      (natSortTrans (fun p : String × Nat => p.2)) hK
    refine List.pairwise_map.mpr (hR.imp ?_)
    rintro p q (⟨h1, h2⟩ | ⟨h1, h2, h3⟩)
    · left
      have ha := of_decide_eq_true h1
      have hb : ¬ p.2 ≤ q.2 := fun hx => h2 (decide_eq_true hx)
      show q.2 < p.2
      omega
    · right
      have ha := of_decide_eq_true h1
      have hb := of_decide_eq_true h2
      exact ⟨by show p.2 = q.2; omega, h3⟩
  · intro kf hkf
    rw [hdefK, hidK] at hkf
    rcases List.mem_filter.mp hkf with ⟨hks, hkpos⟩
    have hkl := (perm_jsSortBy _).mem_iff.mp hks
    rcases List.mem_map.mp hkl with ⟨p, hpt, hpe⟩
    rw [htblK] at hpt
    rcases List.mem_map.mp hpt with ⟨m, hm, hmp⟩
    have hpos : 0 < kf.count := of_decide_eq_true hkpos
    rw [← hpe, ← hmp]
    rw [← hpe, ← hmp] at hpos
    exact ⟨hm, rfl, hpos⟩
  · intro m hm hpos
    have hmem : (m, data.countP (fun e => containsStr e.content m)) ∈ vocabCounts keywordTable data := by
      rw [htblK]
      exact List.mem_map_of_mem _ hm
    have hl := List.mem_map_of_mem
      (fun p => ({ keyword := p.1, count := p.2 } : KeywordFrequency)) hmem
    have hs := (@perm_jsSortBy _ (fun a b => decide (b.count ≤ a.count)) _).mem_iff.mpr hl
    have hf : ({ keyword := m, count := data.countP (fun e => containsStr e.content m) } :
          KeywordFrequency)
        ∈ (jsSortBy (fun a b => decide (b.count ≤ a.count))
            ((vocabCounts keywordTable data).map
              (fun p => ({ keyword := p.1, count := p.2 } : KeywordFrequency)))).filter
          (fun k => decide (0 < k.count)) :=
      List.mem_filter.mpr ⟨hs, decide_eq_true hpos⟩
    refine List.mem_map.mpr ⟨⟨m, data.countP (fun e => containsStr e.content m)⟩, ?_, rfl⟩
    rw [hdefK, hidK]
    exact hf
  · rw [hdefK, hidK]
    have hK : (((vocabCounts keywordTable data)).map
        (fun p => ({ keyword := p.1, count := p.2 } : KeywordFrequency))).Pairwise
        (fun p q => rankIn keywordTable p.keyword < rankIn keywordTable q.keyword) := by
      rw [htblK]
      refine List.pairwise_map.mpr ?_
      exact List.pairwise_map.mpr (pairwise_rankIn_lt hndK)
    have hR := pairwise_jsSortBy (natSortTotal (fun k : KeywordFrequency => k.count))
      (natSortTrans (fun k : KeywordFrequency => k.count)) hK
    refine List.Pairwise.sublist (List.filter_sublist _) (hR.imp ?_)
    rintro p q (⟨h1, h2⟩ | ⟨h1, h2, h3⟩)
    · left
      have ha := of_decide_eq_true h1
      have hb : ¬ p.count ≤ q.count := fun hx => h2 (decide_eq_true hx)
      omega
    · right
      have ha := of_decide_eq_true h1
      have hb := of_decide_eq_true h2
      exact ⟨by omega, h3⟩

/-- Witness for C9: concrete membership instances for both tables. -/
theorem multiLabel_distributions_witness :
    ((⟨"铝", 1⟩ : NamedValue).name ∈ metals
      ∧ (⟨"铝", 1⟩ : NamedValue).value =
          ([⟨"", "铝价", "t", "", "u", "", "", "", "", "", ""⟩] : List SmmLogEntry).countP
            (fun e => containsStr e.content (⟨"铝", 1⟩ : NamedValue).name)
      ∧ 0 < (⟨"铝", 1⟩ : NamedValue).value) :=
  (multiLabel_distributions_ok [⟨"", "铝价", "t", "", "u", "", "", "", "", "", ""⟩]).1
    ⟨"铝", 1⟩ (by decide)

/-! ## Claim C8: top companies -/

theorem startsWithChars_nil_needle : ∀ l : List Char, startsWithChars l [] = true := by
  intro l
  cases l <;> rfl

theorem containsSub_nil_needle : ∀ l : List Char, containsSub l [] = true := by
  intro l
  cases l <;> rfl

theorem startsWithChars_append (b : List Char) :
    ∀ (n a : List Char), startsWithChars a n = true → startsWithChars (a ++ b) n = true := by
  intro n
  induction n with
  | nil => intro a _; exact startsWithChars_nil_needle _
  | cons c ns ih =>
    intro a h
    cases a with
    | nil => exact absurd h (by simp [startsWithChars])
    | cons ah at' =>
      rw [List.cons_append]
      rw [startsWithChars, Bool.and_eq_true] at h ⊢
      exact ⟨h.1, ih at' h.2⟩

theorem containsSub_append_right (b : List Char) :
    ∀ (a n : List Char), containsSub a n = true → containsSub (a ++ b) n = true := by
  intro a
  induction a with
  | nil =>
    intro n h
    cases n with
    | nil => exact containsSub_nil_needle b
    | cons c ns => exact absurd h (by simp [containsSub, startsWithChars])
  | cons ah at' ih =>
    intro n h
    rw [containsSub, Bool.or_eq_true] at h
    rw [List.cons_append, containsSub, Bool.or_eq_true]
    rcases h with h | h
    · exact Or.inl (by rw [← List.cons_append]; exact startsWithChars_append b n _ h)
    · exact Or.inr (ih n h)

/-- A company field containing `"smm"` after lowercasing makes the record
internal. -/
theorem company_smm_internal :
    ∀ e : SmmLogEntry, containsStr (jsToLower e.company) "smm" = true → isInternalUser e = true := by
  intro e h
  unfold isInternalUser
  rw [List.any_cons]
  have hdata : (jsToLower (e.company ++ " " ++ e.userName ++ " " ++ e.nickname ++ " " ++ e.email)).data
      = (jsToLower e.company).data
        ++ ((" " ++ e.userName ++ " " ++ e.nickname ++ " " ++ e.email).data.map Char.toLower) := by
    show ((e.company ++ " " ++ e.userName ++ " " ++ e.nickname ++ " " ++ e.email).data.map Char.toLower) = _
    have hsplit : (e.company ++ " " ++ e.userName ++ " " ++ e.nickname ++ " " ++ e.email).data
        = e.company.data ++ (" " ++ e.userName ++ " " ++ e.nickname ++ " " ++ e.email).data := by
      simp [String.data_append, List.append_assoc]
    rw [hsplit, List.map_append]
    rfl
  have h1 : containsStr
      (jsToLower (e.company ++ " " ++ e.userName ++ " " ++ e.nickname ++ " " ++ e.email)) "smm"
      = true := by
    unfold containsStr at h ⊢
    rw [hdata]
    exact containsSub_append_right _ _ _ h
  rw [h1]
  rfl

/-- The enumeration `jsObjectKeysOrder` arranges any dictionary with
duplicate-free keys according to `keyOrd` over its insertion-order keys. -/
theorem pairwise_keyOrd_jsObjectKeysOrder {β : Type _} (st : List (String × β))
    (hnd : (st.map Prod.fst).Nodup) :
    (jsObjectKeysOrder st).Pairwise (fun p q => keyOrd (st.map Prod.fst) p.1 q.1) := by
  unfold jsObjectKeysOrder
  rw [List.pairwise_append]
  have hmemIdx : ∀ p ∈ jsSortBy (fun a b => decide (digitsVal a.1.data ≤ digitsVal b.1.data))
      (st.filter (fun p => isArrayIndexKey p.1)), isArrayIndexKey p.1 = true := by
    intro p hp
    have := (perm_jsSortBy _).mem_iff.mp hp
    exact (List.mem_filter.mp this).2
  have hmemNon : ∀ p ∈ st.filter (fun p => !isArrayIndexKey p.1), isArrayIndexKey p.1 = false := by
    intro p hp
    have := (List.mem_filter.mp hp).2
    rwa [Bool.not_eq_true'] at this
  refine ⟨?_, ?_, ?_⟩
  · have hs := pairwise_le_jsSortBy
      (fun a b => (natSortTotal (fun p : String × β => digitsVal p.1.data) b a))
      (fun a b c h1 h2 => decide_eq_true
        (Nat.le_trans (of_decide_eq_true h1) (of_decide_eq_true h2)))
      (st.filter (fun p => isArrayIndexKey p.1))
    refine hs.imp_of_mem ?_
    intro p q hp hq hle
    unfold keyOrd
    rw [if_pos (hmemIdx p hp), if_pos (hmemIdx q hq)]
    exact of_decide_eq_true hle
  · have hst : st.Pairwise (fun p q => rankIn (st.map Prod.fst) p.1 < rankIn (st.map Prod.fst) q.1) :=
      (@List.pairwise_map (String × β) String Prod.fst
        (fun a b => rankIn (st.map Prod.fst) a < rankIn (st.map Prod.fst) b) st).mp
        (pairwise_rankIn_lt hnd)
    refine (List.Pairwise.sublist (List.filter_sublist _) hst).imp_of_mem ?_
    intro p q hp hq hlt
    unfold keyOrd
    rw [if_neg (by rw [hmemNon p hp]; exact Bool.false_ne_true),
      if_neg (by rw [hmemNon q hq]; exact Bool.false_ne_true)]
    exact hlt
  · intro p hp q hq
    unfold keyOrd
    rw [if_pos (hmemIdx p hp), if_neg (by rw [hmemNon q hq]; exact Bool.false_ne_true)]
    trivial

/-- **C8 (amended).** `getTopCompanies` buckets every internal record under
the fixed aggregate label, buckets external records under the trimmed
non-empty `company` field, and returns the first 10 of the bucket list
sorted descending by count, with ties broken by JavaScript object-key
enumeration order: bucket labels that are canonical array indices come
first in ascending numeric order, all other labels in first-seen order. -/
theorem getTopCompanies_ok :
    ∀ data : List SmmLogEntry,
      ∃ L : List NamedValue,
        getTopCompanies data = L.take 10
        ∧ (L.map (fun nv => nv.name)).Nodup
        ∧ (∀ nv ∈ L,
            nv.value = data.countP (fun e => decide (companyBucket e = some nv.name))
            ∧ 0 < nv.value)
        ∧ (∀ k : String, k ∈ L.map (fun nv => nv.name) ↔ ∃ e ∈ data, companyBucket e = some k)
        ∧ L.Pairwise (fun a b =>
            b.value < a.value
            ∨ (a.value = b.value
                ∧ keyOrd (jsSetOf (data.filterMap companyBucket)) a.name b.name))
        ∧ (∀ e : SmmLogEntry, isInternalUser e = true → companyBucket e = some INTERNAL_LABEL)
        ∧ (∀ e : SmmLogEntry, containsStr (jsToLower e.company) "smm" = true →
            isInternalUser e = true) := by
  intro data
  have hkeys : ((data.foldl (fun counts entry =>
      match companyBucket entry with
      | some k => bump counts k
      | none => counts) []).map Prod.fst) = jsSetOf (data.filterMap companyBucket) :=
    keys_foldl_bumpOpt companyBucket data []
  have hknodup : ((data.foldl (fun counts entry =>
      match companyBucket entry with
      | some k => bump counts k
      | none => counts) []).map Prod.fst).Nodup := by
    rw [hkeys]
    exact nodup_jsSetOf _
  have hval : ∀ k, valueOf (data.foldl (fun counts entry =>
      match companyBucket entry with
      | some k => bump counts k
      | none => counts) []) k
      = data.countP (fun e => decide (companyBucket e = some k)) := by
    intro k
    have h := valueOf_foldl_bumpOpt companyBucket data [] k
    rw [show valueOf [] k = (0 : Nat) from rfl, Nat.zero_add] at h
    exact h
  refine ⟨(jsSortBy (fun a b => decide (b.2 ≤ a.2)) (jsObjectKeysOrder
      (data.foldl (fun counts entry =>
        match companyBucket entry with
        | some k => bump counts k
        | none => counts) []))).map (fun p => (⟨p.1, p.2⟩ : NamedValue)),
    ?_, ?_, ?_, ?_, ?_, ?_, company_smm_internal⟩
  · exact List.map_take _ _ 10
  · have hperm : ((jsSortBy (fun a b => decide (b.2 ≤ a.2)) (jsObjectKeysOrder
        (data.foldl (fun counts entry =>
          match companyBucket entry with
          | some k => bump counts k
          | none => counts) []))).map (fun p => (⟨p.1, p.2⟩ : NamedValue))).map (fun nv => nv.name)
        |>.Perm ((data.foldl (fun counts entry =>
          match companyBucket entry with
          | some k => bump counts k
          | none => counts) []).map Prod.fst) := by
      rw [List.map_map]
      exact ((perm_jsSortBy _).trans (perm_jsObjectKeysOrder _)).map _
    exact hperm.nodup_iff.mpr hknodup
  · intro nv hnv
    rcases List.mem_map.mp hnv with ⟨p, hp, hpe⟩
    have hpc : p ∈ data.foldl (fun counts entry =>
        match companyBucket entry with
        | some k => bump counts k
        | none => counts) [] :=
      ((perm_jsSortBy _).trans (perm_jsObjectKeysOrder _)).mem_iff.mp hp
    have h2 := snd_eq_valueOf_of_mem hknodup hpc
    have hname : p.1 ∈ jsSetOf (data.filterMap companyBucket) := by
      rw [← hkeys]
      exact List.mem_map_of_mem _ hpc
    have hex : ∃ e ∈ data, companyBucket e = some p.1 :=
      List.mem_filterMap.mp (mem_jsSetOf.mp hname)
    have hpos : 0 < data.countP (fun e => decide (companyBucket e = some p.1)) := by
      rw [List.countP_pos]
      rcases hex with ⟨e, he, hbe⟩
      exact ⟨e, he, decide_eq_true hbe⟩
    rw [← hpe]
    show p.2 = _ ∧ 0 < p.2
    rw [h2, hval p.1]
    exact ⟨rfl, hpos⟩
  · intro k
    have hpermk : ((jsSortBy (fun a b => decide (b.2 ≤ a.2)) (jsObjectKeysOrder
        (data.foldl (fun counts entry =>
          match companyBucket entry with
          | some k => bump counts k
          | none => counts) []))).map (fun p => (⟨p.1, p.2⟩ : NamedValue))).map (fun nv => nv.name)
        |>.Perm ((data.foldl (fun counts entry =>
          match companyBucket entry with
          | some k => bump counts k
          | none => counts) []).map Prod.fst) := by
      rw [List.map_map]
      exact ((perm_jsSortBy _).trans (perm_jsObjectKeysOrder _)).map _
    rw [hpermk.mem_iff, hkeys, mem_jsSetOf, List.mem_filterMap]
  · have hKO := pairwise_keyOrd_jsObjectKeysOrder
      (data.foldl (fun counts entry =>
        match companyBucket entry with
        | some k => bump counts k
        | none => counts) []) hknodup
    rw [hkeys] at hKO
    have hR := pairwise_jsSortBy (natSortTotal (fun p : String × Nat => p.2))
      (natSortTrans (fun p : String × Nat => p.2)) hKO
    refine List.pairwise_map.mpr (hR.imp ?_)
    rintro p q (⟨h1, h2⟩ | ⟨h1, h2, h3⟩)
    · left
      have ha := of_decide_eq_true h1
      have hb : ¬ p.2 ≤ q.2 := fun hx => h2 (decide_eq_true hx)
      show q.2 < p.2
      omega
    · right
      have ha := of_decide_eq_true h1
      have hb := of_decide_eq_true h2
      exact ⟨by show p.2 = q.2; omega, h3⟩
  · intro e h
    unfold companyBucket
    rw [if_pos h]

/-- Counterexample for C8 as frozen: with buckets `"Acme"` (seen first) and
`"1"` tied at one record each, the output lists `"1"` first — ECMAScript
enumerates the array-index key `"1"` before the insertion-ordered key
`"Acme"` — contradicting "ties broken by first-seen order". -/
theorem getTopCompanies_counterexample :
    getTopCompanies
        [⟨"", "q", "2024-01-01 10:00:00", "", "u1", "Acme", "", "", "", "", ""⟩,
         ⟨"", "q", "2024-01-01 11:00:00", "", "u2", "1", "", "", "", "", ""⟩]
      ≠ [⟨"Acme", 1⟩, ⟨"1", 1⟩]
    ∧ getTopCompanies
        [⟨"", "q", "2024-01-01 10:00:00", "", "u1", "Acme", "", "", "", "", ""⟩,
         ⟨"", "q", "2024-01-01 11:00:00", "", "u2", "1", "", "", "", "", ""⟩]
      = [⟨"1", 1⟩, ⟨"Acme", 1⟩]
    ∧ companyBucket ⟨"", "q", "2024-01-01 10:00:00", "", "u1", "Acme", "", "", "", "", ""⟩
      = some "Acme"
    ∧ companyBucket ⟨"", "q", "2024-01-01 11:00:00", "", "u2", "1", "", "", "", "", ""⟩
      = some "1" := by
  refine ⟨by decide, by decide, by decide, by decide⟩

/-- Witness for C8 (amended): the internal-bucketing clause at a concrete
record. -/
theorem getTopCompanies_witness :
    companyBucket ⟨"", "q", "t", "", "u", "SMM Metal", "", "", "", "", ""⟩
      = some INTERNAL_LABEL := by
  obtain ⟨L, hL⟩ := getTopCompanies_ok []
  exact hL.2.2.2.2.2.1 ⟨"", "q", "t", "", "u", "SMM Metal", "", "", "", "", ""⟩ (by decide)

/-! ## Claim C5: daily trend -/

theorem strLe_refl : ∀ a : String, strLe a a = true := by
  have hc : ∀ l : List Char, charListLe l l = true := by
    intro l
    induction l with
    | nil => rfl
    | cons c t ih => rw [charListLe, if_pos rfl]; exact ih
  intro a
  exact hc a.data

theorem dayAccOf_bumpDay :
    ∀ (st : List (String × DayAcc)) (d₀ uid d : String),
      dayAccOf (bumpDay st d₀ uid) d
        = if d₀ = d then
            ⟨(dayAccOf st d).queries + 1,
             if uid = "" then (dayAccOf st d).users else addUser (dayAccOf st d).users uid⟩
          else dayAccOf st d := by
  intro st
  induction st with
  | nil =>
    intro d₀ uid d
    by_cases h : d₀ = d
    · subst h
      by_cases hu : uid = "" <;> simp [bumpDay, dayAccOf, addUser, hu]
    · simp [bumpDay, dayAccOf, h]
  | cons p rest ih =>
    obtain ⟨k, acc⟩ := p
    intro d₀ uid d
    by_cases hk : k = d₀
    · subst hk
      by_cases h : k = d
      · subst h
        simp [bumpDay, dayAccOf]
      · simp [bumpDay, dayAccOf, h]
    · have hk' : ¬d₀ = k := fun hh => hk hh.symm
      by_cases h : k = d
      · subst h
        simp [bumpDay, dayAccOf, hk, hk']
      · simp [bumpDay, dayAccOf, hk, h, ih]

theorem keys_bumpDay : ∀ (st : List (String × DayAcc)) (d uid : String),
    (bumpDay st d uid).map Prod.fst = addUser (st.map Prod.fst) d := by
  intro st
  induction st with
  | nil => intro d uid; simp [bumpDay, addUser]
  | cons p rest ih =>
    obtain ⟨k, acc⟩ := p
    intro d uid
    by_cases hk : k = d
    · subst hk
      simp [bumpDay, addUser]
    · rw [bumpDay, if_neg hk]
      simp only [List.map_cons, ih]
      unfold addUser
      by_cases h : d ∈ rest.map Prod.fst
      · have hmem : d ∈ k :: rest.map Prod.fst := List.mem_cons_of_mem _ h
        rw [if_pos h, if_pos hmem]
      · have hmem : d ∉ k :: rest.map Prod.fst := by
          rw [List.mem_cons]
          rintro (h' | h')
          · exact hk h'.symm
          · exact h h'
        rw [if_neg h, if_neg hmem]
        simp

theorem queries_dailyFold :
    ∀ (data : List SmmLogEntry) (st : List (String × DayAcc)) (d : String), d ≠ "" →
      (dayAccOf (data.foldl (fun st entry =>
        if dateOf entry.time = "" then st else bumpDay st (dateOf entry.time) entry.userId)
        st) d).queries
      = (dayAccOf st d).queries + data.countP (fun e => decide (dateOf e.time = d)) := by
  intro data
  induction data with
  | nil => intro st d _; simp
  | cons e t ih =>
    intro st d hd
    rw [List.foldl_cons, List.countP_cons]
    by_cases h0 : dateOf e.time = ""
    · rw [if_pos h0, ih st d hd]
      have hpe : (decide (dateOf e.time = d)) = false := by
        rw [h0]
        exact decide_eq_false (fun hc => hd hc.symm)
      rw [hpe, if_neg Bool.false_ne_true]
      omega
    · rw [if_neg h0, ih _ d hd, dayAccOf_bumpDay]
      by_cases hdd : dateOf e.time = d
      · rw [if_pos hdd, decide_eq_true hdd, if_pos (Eq.refl true)]
        show (dayAccOf st d).queries + 1 + List.countP (fun e => decide (dateOf e.time = d)) t
          = (dayAccOf st d).queries + (List.countP (fun e => decide (dateOf e.time = d)) t + 1)
        omega
      · rw [if_neg hdd, decide_eq_false hdd, if_neg Bool.false_ne_true]
        omega

theorem users_mem_dailyFold :
    ∀ (data : List SmmLogEntry) (st : List (String × DayAcc)) (d : String), d ≠ "" →
      ∀ u : String,
        u ∈ (dayAccOf (data.foldl (fun st entry =>
          if dateOf entry.time = "" then st else bumpDay st (dateOf entry.time) entry.userId)
          st) d).users
        ↔ u ∈ (dayAccOf st d).users
          ∨ (u ≠ "" ∧ ∃ e ∈ data, dateOf e.time = d ∧ e.userId = u) := by
  intro data
  induction data with
  | nil => intro st d _ u; simp
  | cons e t ih =>
    intro st d hd u
    rw [List.foldl_cons]
    by_cases h0 : dateOf e.time = ""
    · rw [if_pos h0, ih st d hd]
      constructor
      · rintro (h | h)
        · exact Or.inl h
        · exact Or.inr ⟨h.1, by
            rcases h.2 with ⟨e', he', hp⟩
            exact ⟨e', List.mem_cons_of_mem _ he', hp⟩⟩
      · rintro (h | ⟨hu, e', he', hde, hui⟩)
        · exact Or.inl h
        · rcases List.mem_cons.mp he' with rfl | he''
          · exact absurd hde (by rw [h0]; exact fun hc => hd hc.symm)
          · exact Or.inr ⟨hu, e', he'', hde, hui⟩
    · rw [if_neg h0, ih _ d hd, dayAccOf_bumpDay]
      by_cases hdd : dateOf e.time = d
      · rw [if_pos hdd]
        by_cases hu0 : e.userId = ""
        · rw [if_pos hu0]
          show u ∈ (dayAccOf st d).users ∨ _ ↔ _
          constructor
          · rintro (h | h)
            · exact Or.inl h
            · exact Or.inr ⟨h.1, by
                rcases h.2 with ⟨e', he', hp⟩
                exact ⟨e', List.mem_cons_of_mem _ he', hp⟩⟩
          · rintro (h | ⟨hu, e', he', hde, hui⟩)
            · exact Or.inl h
            · rcases List.mem_cons.mp he' with rfl | he''
              · exact absurd hui.symm (by rw [hu0]; exact hu)
              · exact Or.inr ⟨hu, e', he'', hde, hui⟩
        · rw [if_neg hu0]
          show u ∈ addUser (dayAccOf st d).users e.userId ∨ _ ↔ _
          rw [mem_addUser]
          constructor
          · rintro ((h | h) | h)
            · exact Or.inl h
            · subst h
              exact Or.inr ⟨hu0, e, List.mem_cons_self _ _, hdd, rfl⟩
            · exact Or.inr ⟨h.1, by
                rcases h.2 with ⟨e', he', hp⟩
                exact ⟨e', List.mem_cons_of_mem _ he', hp⟩⟩
          · rintro (h | ⟨hu, e', he', hde, hui⟩)
            · exact Or.inl (Or.inl h)
            · rcases List.mem_cons.mp he' with rfl | he''
              · exact Or.inl (Or.inr hui.symm)
              · exact Or.inr ⟨hu, e', he'', hde, hui⟩
      · rw [if_neg hdd]
        constructor
        · rintro (h | h)
          · exact Or.inl h
          · exact Or.inr ⟨h.1, by
              rcases h.2 with ⟨e', he', hp⟩
              exact ⟨e', List.mem_cons_of_mem _ he', hp⟩⟩
        · rintro (h | ⟨hu, e', he', hde, hui⟩)
          · exact Or.inl h
          · rcases List.mem_cons.mp he' with rfl | he''
            · exact absurd hde hdd
            · exact Or.inr ⟨hu, e', he'', hde, hui⟩

theorem users_nodup_dailyFold :
    ∀ (data : List SmmLogEntry) (st : List (String × DayAcc)),
      (∀ d', (dayAccOf st d').users.Nodup) →
      ∀ d, (dayAccOf (data.foldl (fun st entry =>
        if dateOf entry.time = "" then st else bumpDay st (dateOf entry.time) entry.userId)
        st) d).users.Nodup := by
  intro data
  induction data with
  | nil => intro st h d; exact h d
  | cons e t ih =>
    intro st h d
    rw [List.foldl_cons]
    by_cases h0 : dateOf e.time = ""
    · rw [if_pos h0]
      exact ih st h d
    · rw [if_neg h0]
      refine ih _ ?_ d
      intro d'
      rw [dayAccOf_bumpDay]
      by_cases hdd : dateOf e.time = d'
      · rw [if_pos hdd]
        show (if e.userId = "" then (dayAccOf st d').users
          else addUser (dayAccOf st d').users e.userId).Nodup
        by_cases hu : e.userId = ""
        · rw [if_pos hu]
          exact h d'
        · rw [if_neg hu]
          exact nodup_addUser (h d')
      · rw [if_neg hdd]
        exact h d'

theorem keys_mem_dailyFold :
    ∀ (data : List SmmLogEntry) (st : List (String × DayAcc)) (d : String),
      d ∈ (data.foldl (fun st entry =>
        if dateOf entry.time = "" then st else bumpDay st (dateOf entry.time) entry.userId)
        st).map Prod.fst
      ↔ d ∈ st.map Prod.fst ∨ (d ≠ "" ∧ ∃ e ∈ data, dateOf e.time = d) := by
  intro data
  induction data with
  | nil => intro st d; simp
  | cons e t ih =>
    intro st d
    rw [List.foldl_cons]
    by_cases h0 : dateOf e.time = ""
    · rw [if_pos h0, ih st d]
      constructor
      · rintro (h | h)
        · exact Or.inl h
        · exact Or.inr ⟨h.1, by
            rcases h.2 with ⟨e', he', hp⟩
            exact ⟨e', List.mem_cons_of_mem _ he', hp⟩⟩
      · rintro (h | ⟨hd, e', he', hde⟩)
        · exact Or.inl h
        · rcases List.mem_cons.mp he' with rfl | he''
          · exact absurd hde (by rw [h0]; exact fun hc => hd hc.symm)
          · exact Or.inr ⟨hd, e', he'', hde⟩
    · rw [if_neg h0, ih _ d, keys_bumpDay, mem_addUser]
      constructor
      · rintro ((h | h) | h)
        · exact Or.inl h
        · exact Or.inr ⟨fun hc => h0 (h.symm.trans hc), e, List.mem_cons_self _ _, h.symm⟩
        · exact Or.inr ⟨h.1, by
            rcases h.2 with ⟨e', he', hp⟩
            exact ⟨e', List.mem_cons_of_mem _ he', hp⟩⟩
      · rintro (h | ⟨hd, e', he', hde⟩)
        · exact Or.inl (Or.inl h)
        · rcases List.mem_cons.mp he' with rfl | he''
          · exact Or.inl (Or.inr hde.symm)
          · exact Or.inr ⟨hd, e', he'', hde⟩

theorem keys_nodup_dailyFold :
    ∀ (data : List SmmLogEntry) (st : List (String × DayAcc)),
      (st.map Prod.fst).Nodup →
      ((data.foldl (fun st entry =>
        if dateOf entry.time = "" then st else bumpDay st (dateOf entry.time) entry.userId)
        st).map Prod.fst).Nodup := by
  intro data
  induction data with
  | nil => intro st h; exact h
  | cons e t ih =>
    intro st h
    rw [List.foldl_cons]
    by_cases h0 : dateOf e.time = ""
    · rw [if_pos h0]
      exact ih st h
    · rw [if_neg h0]
      refine ih _ ?_
      rw [keys_bumpDay]
      exact nodup_addUser h

/-- **C5.** `getDailyTrend` produces exactly one entry per (non-empty)
date portion present in the data, in strictly ascending date order, where
`queries` counts the records of that date and `dau` counts the distinct
non-empty user ids among them; records whose timestamp has an empty date
portion are skipped. -/
theorem getDailyTrend_ok :
    ∀ data : List SmmLogEntry,
      (getDailyTrend data).Pairwise (fun a b => strLe a.date b.date = true ∧ a.date ≠ b.date)
      ∧ (∀ d : String,
          d ∈ (getDailyTrend data).map (fun t => t.date)
            ↔ (d ≠ "" ∧ ∃ e ∈ data, dateOf e.time = d))
      ∧ (∀ t ∈ getDailyTrend data,
          t.queries = data.countP (fun e => decide (dateOf e.time = t.date))
          ∧ t.dau = (((data.filter (fun e => decide (dateOf e.time = t.date))).map
              (fun e => e.userId)).filter (fun u => decide (u ≠ ""))).toFinset.card) := by
  intro data
  have hdef : getDailyTrend data =
      (jsSortBy strLe ((jsObjectKeysOrder (dailyStats data)).map Prod.fst)).map
        (fun date =>
          (⟨date, (dayAccOf (dailyStats data) date).queries,
            (dayAccOf (dailyStats data) date).users.length⟩ : DailyTrend)) := rfl
  have hkeysnodup : ((dailyStats data).map Prod.fst).Nodup :=
    keys_nodup_dailyFold data [] (by simp)
  have hkeysmem : ∀ d : String,
      d ∈ (dailyStats data).map Prod.fst ↔ (d ≠ "" ∧ ∃ e ∈ data, dateOf e.time = d) := by
    intro d
    have h := keys_mem_dailyFold data [] d
    rw [show (([] : List (String × DayAcc)).map Prod.fst) = [] from rfl] at h
    simpa using h
  have hSin : ((jsObjectKeysOrder (dailyStats data)).map Prod.fst).Perm
      ((dailyStats data).map Prod.fst) := (perm_jsObjectKeysOrder _).map _
  have hSperm : (jsSortBy strLe ((jsObjectKeysOrder (dailyStats data)).map Prod.fst)).Perm
      ((dailyStats data).map Prod.fst) := (perm_jsSortBy _).trans hSin
  have hSmem : ∀ d : String,
      d ∈ jsSortBy strLe ((jsObjectKeysOrder (dailyStats data)).map Prod.fst)
        ↔ (d ≠ "" ∧ ∃ e ∈ data, dateOf e.time = d) := by
    intro d
    rw [hSperm.mem_iff]
    exact hkeysmem d
  refine ⟨?_, ?_, ?_⟩
  · rw [hdef]
    have hinput : (((jsObjectKeysOrder (dailyStats data)).map Prod.fst)).Pairwise
        (fun a b => a ≠ b) := hSin.nodup_iff.mpr hkeysnodup
    have hPW := pairwise_jsSortBy (fun a b => strLe_total a b) (fun a b c => strLe_trans a b c)
      hinput
    refine List.pairwise_map.mpr (hPW.imp ?_)
    rintro a b (⟨h1, h2⟩ | ⟨h1, h2, h3⟩)
    · refine ⟨h1, ?_⟩
      intro hab
      have hab' : a = b := hab
      exact h2 (by rw [hab']; exact strLe_refl b)
    · exact absurd (strLe_antisymm a b h1 h2) h3
  · intro d
    rw [hdef]
    constructor
    · intro h
      rcases List.mem_map.mp h with ⟨t, ht, hte⟩
      rcases List.mem_map.mp ht with ⟨d', hd', hd'e⟩
      have hdd : d' = d := by rw [← hte, ← hd'e]
      exact (hSmem d).mp (hdd ▸ hd')
    · intro h
      have hdS := (hSmem d).mpr h
      exact List.mem_map.mpr ⟨_, List.mem_map.mpr ⟨d, hdS, rfl⟩, rfl⟩
  · intro t ht
    rw [hdef] at ht
    rcases List.mem_map.mp ht with ⟨d, hdS, hde⟩
    have hdmem := (hSmem d).mp hdS
    have hd : d ≠ "" := hdmem.1
    have hq : (dayAccOf (dailyStats data) d).queries
        = data.countP (fun e => decide (dateOf e.time = d)) := by
      have h := queries_dailyFold data [] d hd
      rw [show (dayAccOf ([] : List (String × DayAcc)) d).queries = 0 from rfl,
        Nat.zero_add] at h
      exact h
    have husers_nodup : (dayAccOf (dailyStats data) d).users.Nodup :=
      users_nodup_dailyFold data [] (fun d' => List.nodup_nil) d
    have hfin : ((dayAccOf (dailyStats data) d).users).toFinset
        = (((data.filter (fun e => decide (dateOf e.time = d))).map (fun e => e.userId)).filter
            (fun u => decide (u ≠ ""))).toFinset := by
      ext u
      rw [List.mem_toFinset, List.mem_toFinset]
      have hm : u ∈ (dayAccOf (dailyStats data) d).users
          ↔ u ∈ (dayAccOf ([] : List (String × DayAcc)) d).users
            ∨ (u ≠ "" ∧ ∃ e ∈ data, dateOf e.time = d ∧ e.userId = u) :=
        users_mem_dailyFold data [] d hd u
      rw [hm]
      constructor
      · rintro (h | ⟨hu, e, he, hdee, hui⟩)
        · exact absurd h (List.not_mem_nil u)
        · exact List.mem_filter.mpr
            ⟨List.mem_map.mpr ⟨e, List.mem_filter.mpr ⟨he, decide_eq_true hdee⟩, hui⟩,
             decide_eq_true hu⟩
      · intro h
        rcases List.mem_filter.mp h with ⟨hmm, hune⟩
        rcases List.mem_map.mp hmm with ⟨e, hef, hui⟩
        rcases List.mem_filter.mp hef with ⟨he, hdee⟩
        exact Or.inr ⟨of_decide_eq_true hune, e, he, of_decide_eq_true hdee, hui⟩
    have hlen : (dayAccOf (dailyStats data) d).users.length
        = ((dayAccOf (dailyStats data) d).users).toFinset.card :=
      (List.toFinset_card_of_nodup husers_nodup).symm
    rw [← hde]
    refine ⟨?_, ?_⟩
    · show (dayAccOf (dailyStats data) d).queries
        = data.countP (fun e => decide (dateOf e.time = d))
      exact hq
    · show (dayAccOf (dailyStats data) d).users.length
        = (((data.filter (fun e => decide (dateOf e.time = d))).map (fun e => e.userId)).filter
            (fun u => decide (u ≠ ""))).toFinset.card
      rw [hlen, hfin]

/-- Witness for C5: membership and the per-entry clause at a concrete
collection. -/
theorem getDailyTrend_witness :
    (⟨"2024-01-01", 1, 1⟩ : DailyTrend).queries =
      ([⟨"", "你好", "2024-01-01 09:15:00", "", "u1", "", "", "", "", "", ""⟩] :
        List SmmLogEntry).countP
        (fun e => decide (dateOf e.time = (⟨"2024-01-01", 1, 1⟩ : DailyTrend).date))
    ∧ (⟨"2024-01-01", 1, 1⟩ : DailyTrend).dau =
      (((([⟨"", "你好", "2024-01-01 09:15:00", "", "u1", "", "", "", "", "", ""⟩] :
          List SmmLogEntry).filter
          (fun e => decide (dateOf e.time = (⟨"2024-01-01", 1, 1⟩ : DailyTrend).date))).map
          (fun e => e.userId)).filter (fun u => decide (u ≠ ""))).toFinset.card :=
  (getDailyTrend_ok [⟨"", "你好", "2024-01-01 09:15:00", "", "u1", "", "", "", "", "", ""⟩]).2.2
    ⟨"2024-01-01", 1, 1⟩ (by decide)

/-! ## Claim C6: retention estimator -/

theorem dayUsers_addToDay :
    ∀ (st : List (String × List String)) (d₀ u d : String),
      dayUsers (addToDay st d₀ u) d
        = if d₀ = d then addUser (dayUsers st d) u else dayUsers st d := by
  intro st
  induction st with
  | nil =>
    intro d₀ u d
    by_cases h : d₀ = d
    · simp [addToDay, dayUsers, h, addUser]
    · simp [addToDay, dayUsers, h]
  | cons p rest ih =>
    obtain ⟨k, s⟩ := p
    intro d₀ u d
    by_cases hk : k = d₀
    · subst hk
      by_cases h : k = d
      · simp [addToDay, dayUsers, h]
      · simp [addToDay, dayUsers, h]
    · have hk2 : ¬d₀ = k := fun hh => hk hh.symm
      by_cases h : k = d
      · subst h
        simp [addToDay, dayUsers, hk, hk2]
      · simp [addToDay, dayUsers, hk, h, ih]

theorem keys_addToDay :
    ∀ (st : List (String × List String)) (d u : String),
      (addToDay st d u).map (fun p => p.1) = addUser (st.map (fun p => p.1)) d := by
  intro st
  induction st with
  | nil =>
    intro d u
    simp [addToDay, addUser]
  | cons q rest ih =>
    obtain ⟨k, s⟩ := q
    intro d u
    by_cases hk : k = d
    · subst hk
      simp [addToDay, addUser]
    · rw [show addToDay ((k, s) :: rest) d u = (k, s) :: addToDay rest d u from by
        rw [addToDay, if_neg hk]]
      simp only [List.map_cons]
      rw [ih]
      unfold addUser
      by_cases hm : d ∈ rest.map (fun p => p.1)
      · rw [if_pos hm, if_pos (List.mem_cons_of_mem _ hm)]
      · have hnm : ¬d ∈ k :: rest.map (fun p => p.1) := by
          intro hc
          rcases List.mem_cons.mp hc with hc | hc
          · exact hk hc.symm
          · exact hm hc
        rw [if_neg hm, if_neg hnm]
        rfl

theorem mem_dayUsers_retFold :
    ∀ (data : List SmmLogEntry) (st : List (String × List String)) (d u : String),
      u ∈ dayUsers (data.foldl
          (fun ud entry => addToDay ud (dateOf entry.time) entry.userId) st) d
      ↔ u ∈ dayUsers st d ∨ ∃ e ∈ data, dateOf e.time = d ∧ e.userId = u := by
  intro data
  induction data with
  | nil =>
    intro st d u
    simp
  | cons e t ih =>
    intro st d u
    rw [List.foldl_cons, ih, dayUsers_addToDay]
    by_cases hdd : dateOf e.time = d
    · rw [if_pos hdd, mem_addUser]
      constructor
      · rintro ((h | h) | h)
        · exact Or.inl h
        · exact Or.inr ⟨e, List.mem_cons_self _ _, hdd, h.symm⟩
        · rcases h with ⟨e2, he2, hp⟩
          exact Or.inr ⟨e2, List.mem_cons_of_mem _ he2, hp⟩
      · rintro (h | ⟨e2, he2, hde, hui⟩)
        · exact Or.inl (Or.inl h)
        · rcases List.mem_cons.mp he2 with rfl | he3
          · exact Or.inl (Or.inr hui.symm)
          · exact Or.inr ⟨e2, he3, hde, hui⟩
    · rw [if_neg hdd]
      constructor
      · rintro (h | h)
        · exact Or.inl h
        · rcases h with ⟨e2, he2, hp⟩
          exact Or.inr ⟨e2, List.mem_cons_of_mem _ he2, hp⟩
      · rintro (h | ⟨e2, he2, hde, hui⟩)
        · exact Or.inl h
        · rcases List.mem_cons.mp he2 with rfl | he3
          · exact absurd hde hdd
          · exact Or.inr ⟨e2, he3, hde, hui⟩

theorem nodup_dayUsers_retFold :
    ∀ (data : List SmmLogEntry) (st : List (String × List String)),
      (∀ d2, (dayUsers st d2).Nodup) →
      ∀ d, (dayUsers (data.foldl
          (fun ud entry => addToDay ud (dateOf entry.time) entry.userId) st) d).Nodup := by
  intro data
  induction data with
  | nil =>
    intro st h d
    exact h d
  | cons e t ih =>
    intro st h d
    rw [List.foldl_cons]
    refine ih _ (fun d2 => ?_) d
    rw [dayUsers_addToDay]
    by_cases hdd : dateOf e.time = d2
    · rw [if_pos hdd]
      exact nodup_addUser (h d2)
    · rw [if_neg hdd]
      exact h d2

theorem keys_retFold :
    ∀ (data : List SmmLogEntry) (st : List (String × List String)),
      ((data.foldl (fun ud entry => addToDay ud (dateOf entry.time) entry.userId) st).map
          (fun p => p.1))
        = data.foldl (fun ks entry => addUser ks (dateOf entry.time))
            (st.map (fun p => p.1)) := by
  intro data
  induction data with
  | nil =>
    intro st
    rfl
  | cons e t ih =>
    intro st
    rw [List.foldl_cons, List.foldl_cons, ih, keys_addToDay]

theorem keys_userDaysOf (data : List SmmLogEntry) :
    (userDaysOf data).map (fun p => p.1) = jsSetOf (data.map (fun e => dateOf e.time)) := by
  have h := keys_retFold data []
  unfold userDaysOf jsSetOf
  rw [List.foldl_map]
  exact h

theorem dayUsers_nodup (data : List SmmLogEntry) (d : String) :
    (dayUsers (userDaysOf data) d).Nodup := by
  unfold userDaysOf
  exact nodup_dayUsers_retFold data [] (fun d2 => List.nodup_nil) d

theorem dayUsers_toFinset (data : List SmmLogEntry) (d : String) :
    (dayUsers (userDaysOf data) d).toFinset = usersOn data d := by
  ext u
  rw [List.mem_toFinset]
  have hm := mem_dayUsers_retFold data [] d u
  rw [show dayUsers ([] : List (String × List String)) d = [] from rfl] at hm
  unfold userDaysOf
  rw [hm]
  unfold usersOn
  rw [List.mem_toFinset]
  constructor
  · rintro (h | ⟨e, he, hde, hui⟩)
    · exact absurd h (List.not_mem_nil u)
    · exact List.mem_map.mpr ⟨e, List.mem_filter.mpr ⟨he, decide_eq_true hde⟩, hui⟩
  · intro h
    rcases List.mem_map.mp h with ⟨e, hef, hui⟩
    rcases List.mem_filter.mp hef with ⟨he, hde⟩
    exact Or.inr ⟨e, he, of_decide_eq_true hde, hui⟩

theorem dayUsers_length_card (data : List SmmLogEntry) (d : String) :
    (dayUsers (userDaysOf data) d).length = (usersOn data d).card := by
  rw [← dayUsers_toFinset data d]
  exact (List.toFinset_card_of_nodup (dayUsers_nodup data d)).symm

theorem dayUsers_inter_card (data : List SmmLogEntry) (d d2 : String) :
    ((dayUsers (userDaysOf data) d).filter
        (fun uid => decide (uid ∈ dayUsers (userDaysOf data) d2))).length
      = (usersOn data d ∩ usersOn data d2).card := by
  have hnod : ((dayUsers (userDaysOf data) d).filter
      (fun uid => decide (uid ∈ dayUsers (userDaysOf data) d2))).Nodup :=
    List.Nodup.filter _ (dayUsers_nodup data d)
  rw [← List.toFinset_card_of_nodup hnod]
  congr 1
  ext u
  rw [List.mem_toFinset, List.mem_filter, Finset.mem_inter, ← dayUsers_toFinset data d,
    ← dayUsers_toFinset data d2, List.mem_toFinset, List.mem_toFinset]
  constructor
  · rintro ⟨h1, h2⟩
    exact ⟨h1, of_decide_eq_true h2⟩
  · rintro ⟨h1, h2⟩
    exact ⟨h1, decide_eq_true h2⟩

theorem foldl_cond_sum {α : Type _} (P : α → Prop) [DecidablePred P] (r : α → ℚ) :
    ∀ (l : List α) (acc : ℚ × Nat),
      l.foldl (fun acc x => if P x then (acc.1 + r x, acc.2 + 1) else acc) acc
        = (acc.1 + ((l.filter (fun x => decide (P x))).map r).sum,
           acc.2 + (l.filter (fun x => decide (P x))).length) := by
  intro l
  induction l with
  | nil =>
    intro acc
    simp
  | cons x t ih =>
    intro acc
    rw [List.foldl_cons, List.filter_cons]
    by_cases h : P x
    · rw [if_pos h, if_pos (decide_eq_true h), ih, List.map_cons, List.sum_cons,
        List.length_cons]
      simp only [Prod.mk.injEq]
      exact ⟨by ring, by omega⟩
    · rw [if_neg h, if_neg (fun hc => h (of_decide_eq_true hc)), ih]

theorem retFoldStep_eq (data : List SmmLogEntry) :
    retFoldStep data = (((retValid data).map (retPair data)).sum, (retValid data).length) := by
  have h :
      (((retDates data).zip (retDates data).tail).foldl
        (fun (acc : ℚ × Nat) p =>
          if 0 < (dayUsers (userDaysOf data) p.1).length then
            (acc.1 + retPair data p, acc.2 + 1)
          else acc) ((0 : ℚ), (0 : Nat)))
      = ((0 : ℚ) + ((((retDates data).zip (retDates data).tail).filter
            (fun p => decide (0 < (dayUsers (userDaysOf data) p.1).length))).map
            (retPair data)).sum,
         (0 : Nat) + (((retDates data).zip (retDates data).tail).filter
            (fun p => decide (0 < (dayUsers (userDaysOf data) p.1).length))).length) :=
    foldl_cond_sum (fun p : String × String => 0 < (dayUsers (userDaysOf data) p.1).length)
      (retPair data) _ _
  unfold retFoldStep retValid
  rw [h, zero_add, Nat.zero_add]

theorem retFoldStep_fst (data : List SmmLogEntry) :
    (retFoldStep data).1 = ((retValid data).map (retPair data)).sum := by
  rw [retFoldStep_eq data]

theorem retFoldStep_snd (data : List SmmLogEntry) :
    (retFoldStep data).2 = (retValid data).length := by
  rw [retFoldStep_eq data]

theorem retention_refines (data : List SmmLogEntry) :
    calculateRetention data = retentionSpec data := by
  have hA : calculateRetention data
      = (if (retDates data).length < 2 then (0 : ℚ)
         else if 0 < (retFoldStep data).2
           then (retFoldStep data).1 / ((retFoldStep data).2 : ℚ) * 100 else 0) := rfl
  have hB : retentionSpec data
      = (if (specDates data).length < 2 then (0 : ℚ)
         else if (specValid data).length = 0 then 0
           else ((specValid data).map (fun p =>
               ((usersOn data p.1 ∩ usersOn data p.2).card : ℚ)
                 / ((usersOn data p.1).card : ℚ))).sum
             / ((specValid data).length : ℚ) * 100) := rfl
  have hperm : ((jsObjectKeysOrder (userDaysOf data)).map (fun p => p.1)).Perm
      (jsSetOf (data.map (fun e => dateOf e.time))) := by
    rw [← keys_userDaysOf data]
    exact (perm_jsObjectKeysOrder (userDaysOf data)).map _
  have hdates : retDates data = specDates data := by
    refine sorted_perm_eq strLe_antisymm ?_ ?_ ?_
    · exact ((perm_jsSortBy _).trans hperm).trans (perm_jsSortBy _).symm
    · exact pairwise_le_jsSortBy strLe_total strLe_trans _
    · exact pairwise_le_jsSortBy strLe_total strLe_trans _
  have hvalid : retValid data = specValid data := by
    unfold retValid specValid
    rw [hdates]
    refine List.filter_congr ?_
    intro p _
    rw [show (dayUsers (userDaysOf data) p.1).length = (usersOn data p.1).card from
      dayUsers_length_card data p.1]
  have hmap : (retValid data).map (retPair data)
      = (specValid data).map (fun p =>
          ((usersOn data p.1 ∩ usersOn data p.2).card : ℚ)
            / ((usersOn data p.1).card : ℚ)) := by
    rw [← hvalid]
    refine List.map_congr_left ?_
    intro p _
    unfold retPair
    rw [dayUsers_inter_card data p.1 p.2, dayUsers_length_card data p.1]
  rw [hA, hB, hdates, retFoldStep_fst data, retFoldStep_snd data, hmap, hvalid]
  by_cases hlt : (specDates data).length < 2
  · rw [if_pos hlt, if_pos hlt]
  · rw [if_neg hlt, if_neg hlt]
    by_cases hn : (specValid data).length = 0
    · rw [if_pos hn, if_neg (by omega)]
    · rw [if_neg hn, if_pos (Nat.pos_of_ne_zero hn)]

theorem retention_boundary (data : List SmmLogEntry)
    (h : (data.map (fun e => dateOf e.time)).toFinset.card < 2) :
    calculateRetention data = 0 := by
  have hperm : ((jsObjectKeysOrder (userDaysOf data)).map (fun p => p.1)).Perm
      (jsSetOf (data.map (fun e => dateOf e.time))) := by
    rw [← keys_userDaysOf data]
    exact (perm_jsObjectKeysOrder (userDaysOf data)).map _
  have h1 : (retDates data).length = (jsSetOf (data.map (fun e => dateOf e.time))).length :=
    ((perm_jsSortBy _).trans hperm).length_eq
  have hlen : (retDates data).length < 2 := by
    rw [h1, length_jsSetOf]
    exact h
  have hA : calculateRetention data
      = (if (retDates data).length < 2 then (0 : ℚ)
         else if 0 < (retFoldStep data).2
           then (retFoldStep data).1 / ((retFoldStep data).2 : ℚ) * 100 else 0) := rfl
  rw [hA, if_pos hlen]

/-- **C6.** `calculateRetention` refines the specification reading
(`retentionSpec`): over the ascending list of distinct date portions it
averages, across consecutive pairs whose day-i user set is non-empty,
`|set_i ∩ set_{i+1}| / |set_i|` (user sets built from `userId` per date,
the empty user id included) and multiplies by 100; with fewer than two
distinct dates the rate is 0, so a one-date collection yields 0; and the
two-date scenario with user sets {a,b} then {b,c} yields 50. -/
theorem calculateRetention_ok :
    (∀ data : List SmmLogEntry, calculateRetention data = retentionSpec data)
    ∧ (∀ data : List SmmLogEntry,
        (data.map (fun e => dateOf e.time)).toFinset.card < 2 →
        calculateRetention data = 0)
    ∧ calculateRetention
        [⟨"", "q", "2024-01-01 10:00:00", "", "a", "", "", "", "", "", ""⟩,
         ⟨"", "q", "2024-01-01 11:00:00", "", "b", "", "", "", "", "", ""⟩,
         ⟨"", "q", "2024-01-02 10:00:00", "", "b", "", "", "", "", "", ""⟩,
         ⟨"", "q", "2024-01-02 11:00:00", "", "c", "", "", "", "", "", ""⟩] = 50 := by
  refine ⟨retention_refines, retention_boundary, ?_⟩
  have h : calculateRetention
      [⟨"", "q", "2024-01-01 10:00:00", "", "a", "", "", "", "", "", ""⟩,
       ⟨"", "q", "2024-01-01 11:00:00", "", "b", "", "", "", "", "", ""⟩,
       ⟨"", "q", "2024-01-02 10:00:00", "", "b", "", "", "", "", "", ""⟩,
       ⟨"", "q", "2024-01-02 11:00:00", "", "c", "", "", "", "", "", ""⟩]
      = ((0 : ℚ) + (((1 : Nat) : ℚ) / ((2 : Nat) : ℚ))) / (((1 : Nat) : ℚ)) * 100 := rfl
  rw [h]
  norm_num

/-- Witness for C6: a one-date collection satisfies the boundary hypothesis
and gets retention 0. -/
theorem calculateRetention_witness :
    (([⟨"", "q", "2024-01-01 10:00:00", "", "a", "", "", "", "", "", ""⟩] :
        List SmmLogEntry).map (fun e => dateOf e.time)).toFinset.card < 2
    ∧ calculateRetention
        [⟨"", "q", "2024-01-01 10:00:00", "", "a", "", "", "", "", "", ""⟩] = 0 :=
  ⟨by decide, calculateRetention_ok.2.1
      [⟨"", "q", "2024-01-01 10:00:00", "", "a", "", "", "", "", "", ""⟩] (by decide)⟩
